import Mathlib

/-!
# SHA-256 (`sha256.c`): a shallow embedding and its properties

The C types are embedded as follows.

* `byte` (`uint8_t`) and `word` (`uint32_t`) are natural numbers; every operation that can
  leave the type's range is followed by an explicit truncation (`toByte`, `toWord`).
* `int` values (`msg_len`, `pad_len`, `tot_len`, the stream index `i`) are integers `Int`
  in the range `INT_MIN .. INT_MAX` of a 32-bit `int`.  The two expressions that can leave
  that range, the sum `msg_len + 1 + pad_len + 4` and the product `msg_len * 8`, wrap
  around in two's complement (`intSum`, `wrapInt`), as they do on the 32-bit `int` of the
  compilers the code is built with; the counters `i` and `j` stay in range.  The remainder
  `%` of C is `Int.tmod` (truncation towards zero).
* `uint64_t L` is a natural number below `2 ^ 64`.
* Arrays are lists; `a[i]` is `List.getD a i 0` and `a[i] = v` is `List.set a i v`.
  A local array without initialiser (`w`, `chunk`) starts as a list of zeros of its length.
* The message is a list of bytes together with the separate argument `msg_len`, as in C.
* Loops with a constant trip count (`16`, `48`, `64`, `8`) recurse on the number of
  iterations left; the two loops whose trip count depends on `msg_len` carry fuel and
  return `none` when it runs out.
-/

namespace Sha256

/-! ## Machine arithmetic -/

/-- Truncation to `word` (`uint32_t`). -/
def toWord (x : Nat) : Nat := x % 2 ^ 32

/-- Truncation to `byte` (`uint8_t`). -/
def toByte (x : Nat) : Nat := x % 2 ^ 8

/-- The shift count `(-n & 31)` of the `ROTR` macro, computed on the `int` literal `n`:
the low five bits of the two's complement of `n`. -/
def negAnd31 (n : Nat) : Nat := ((-(n : Int)) % 32).toNat

/-- Macro `#define ROTR(x, n) ((x >> n) | (x << (-n & 31)))` for a `word` `x`. -/
def ROTR (x n : Nat) : Nat := (x >>> n) ||| toWord (x <<< negAnd31 n)

/-- The largest `int` (32 bits). -/
def INT_MAX : Int := 2 ^ 31 - 1

/-- The smallest `int` (32 bits). -/
def INT_MIN : Int := -(2 ^ 31)

/-- Two's complement wrap-around of an integer to the 32 bits of an `int`. -/
def wrapInt (x : Int) : Int := (x + 2 ^ 31) % 2 ^ 32 - 2 ^ 31

/-- The `int` value of a sum of an `int` and non-negative terms whose exact value is `s`.
Such a sum cannot fall below `INT_MIN`; it is `s` when `s` fits and the wrap-around of `s`
when `s` exceeds `INT_MAX`. -/
def intSum (s : Int) : Int := if INT_MAX < s then wrapInt s else s

/-- Bitwise complement `~x` of a `word`. -/
def notWord (x : Nat) : Nat := x ^^^ 0xffffffff

/-- The round constants `SHA256_K[64]`. -/
def SHA256_K : List Nat := [
  0x428A2F98, 0x71374491, 0xB5C0FBCF, 0xE9B5DBA5,
  0x3956C25B, 0x59F111F1, 0x923F82A4, 0xAB1C5ED5,
  0xD807AA98, 0x12835B01, 0x243185BE, 0x550C7DC3,
  0x72BE5D74, 0x80DEB1FE, 0x9BDC06A7, 0xC19BF174,
  0xE49B69C1, 0xEFBE4786, 0x0FC19DC6, 0x240CA1CC,
  0x2DE92C6F, 0x4A7484AA, 0x5CB0A9DC, 0x76F988DA,
  0x983E5152, 0xA831C66D, 0xB00327C8, 0xBF597FC7,
  0xC6E00BF3, 0xD5A79147, 0x06CA6351, 0x14292967,
  0x27B70A85, 0x2E1B2138, 0x4D2C6DFC, 0x53380D13,
  0x650A7354, 0x766A0ABB, 0x81C2C92E, 0x92722C85,
  0xA2BFE8A1, 0xA81A664B, 0xC24B8B70, 0xC76C51A3,
  0xD192E819, 0xD6990624, 0xF40E3585, 0x106AA070,
  0x19A4C116, 0x1E376C08, 0x2748774C, 0x34B0BCB5,
  0x391C0CB3, 0x4ED8AA4A, 0x5B9CCA4F, 0x682E6FF3,
  0x748F82EE, 0x78A5636F, 0x84C87814, 0x8CC70208,
  0x90BEFFFA, 0xA4506CEB, 0xBEF9A3F7, 0xC67178F2]

/-! ## `sha256_chunk` -/

/-- First loop of `sha256_chunk` (`i = 0; while (i < 16)`): `n` iterations are left, `i` is
the loop counter.  Each iteration stores the big-endian word of `chunk[4i .. 4i+3]` in
`w[i]`. -/
def loadWords (chunk : List Nat) : Nat → Nat → List Nat → List Nat
  | 0, _, w => w
  | n + 1, i, w =>
    loadWords chunk n (i + 1)
      (w.set i
        (toWord (chunk.getD (i * 4 + 0) 0 <<< 0x18)
          ||| toWord (chunk.getD (i * 4 + 1) 0 <<< 0x10)
          ||| toWord (chunk.getD (i * 4 + 2) 0 <<< 0x08)
          ||| toWord (chunk.getD (i * 4 + 3) 0 <<< 0x00)))

/-- Second loop of `sha256_chunk` (`i = 16; while (i < 64)`): `n` iterations are left. -/
def extendWords : Nat → Nat → List Nat → List Nat
  | 0, _, w => w
  | n + 1, i, w =>
    let s0 := ROTR (w.getD (i - 15) 0) 7 ^^^ ROTR (w.getD (i - 15) 0) 18
                ^^^ (w.getD (i - 15) 0 >>> 3)
    let s1 := ROTR (w.getD (i - 2) 0) 17 ^^^ ROTR (w.getD (i - 2) 0) 19
                ^^^ (w.getD (i - 2) 0 >>> 10)
    extendWords n (i + 1)
      (w.set i (toWord (w.getD (i - 16) 0 + s0 + w.getD (i - 7) 0 + s1)))

/-- The message schedule `w[0..63]` that `sha256_chunk` builds from `chunk`. -/
def schedule (chunk : List Nat) : List Nat :=
  extendWords 48 16 (loadWords chunk 16 0 (List.replicate 64 0))

/-- The eight working variables `a .. h` of `sha256_chunk`. -/
structure Vars where
  a : Nat
  b : Nat
  c : Nat
  d : Nat
  e : Nat
  f : Nat
  g : Nat
  h : Nat
  deriving DecidableEq, Repr

/-- One pass through the body of the compression loop at counter `i`. -/
def round (w : List Nat) (i : Nat) (v : Vars) : Vars :=
  let S1 := ROTR v.e 6 ^^^ ROTR v.e 11 ^^^ ROTR v.e 25
  let ch := (v.e &&& v.f) ^^^ (notWord v.e &&& v.g)
  let temp1 := toWord (v.h + S1 + ch + SHA256_K.getD i 0 + w.getD i 0)
  let S0 := ROTR v.a 2 ^^^ ROTR v.a 13 ^^^ ROTR v.a 22
  let maj := (v.a &&& v.b) ^^^ (v.a &&& v.c) ^^^ (v.b &&& v.c)
  let temp2 := toWord (S0 + maj)
  { h := v.g
    g := v.f
    f := v.e
    e := toWord (v.d + temp1)
    d := v.c
    c := v.b
    b := v.a
    a := toWord (temp1 + temp2) }

/-- Third loop of `sha256_chunk` (`i = 0; while (i < 64)`): `n` iterations are left. -/
def rounds (w : List Nat) : Nat → Nat → Vars → Vars
  | 0, _, v => v
  | n + 1, i, v => rounds w n (i + 1) (round w i v)

/-- Function `sha256_chunk(hash, chunk)`: the new contents of `hash[0..7]`. -/
def sha256_chunk (hash chunk : List Nat) : List Nat :=
  let w := schedule chunk
  let v := rounds w 64 0
    { a := hash.getD 0 0, b := hash.getD 1 0, c := hash.getD 2 0, d := hash.getD 3 0,
      e := hash.getD 4 0, f := hash.getD 5 0, g := hash.getD 6 0, h := hash.getD 7 0 }
  [toWord (hash.getD 0 0 + v.a), toWord (hash.getD 1 0 + v.b),
   toWord (hash.getD 2 0 + v.c), toWord (hash.getD 3 0 + v.d),
   toWord (hash.getD 4 0 + v.e), toWord (hash.getD 5 0 + v.f),
   toWord (hash.getD 6 0 + v.g), toWord (hash.getD 7 0 + v.h)]

/-! ## `sha256` -/

/-- The seed constants `hash[8]` is initialised to. -/
def seed : List Nat :=
  [0x6a09e667, 0xbb67ae85, 0x3c6ef372, 0xa54ff53a,
   0x510e527f, 0x9b05688c, 0x1f83d9ab, 0x5be0cd19]

/-- The padding search `pad_len = 0; while ((msg_len + 1 + pad_len + 4) % 64) pad_len++;`
started at `pad_len`; `none` when the fuel runs out. -/
def padLoop (msg_len : Int) : Nat → Int → Option Int
  | 0, _ => none
  | fuel + 1, pad_len =>
    if (intSum (msg_len + 1 + pad_len + 4)).tmod 64 ≠ 0 then padLoop msg_len fuel (pad_len + 1)
    else some pad_len

/-- The value of `pad_len` after the padding search. -/
def padLen (msg_len : Int) : Option Int := padLoop msg_len 64 0

/-- The value of `tot_len = msg_len + 1 + pad_len + 4`, a 32-bit `int`. -/
def totLen (msg_len : Int) : Option Int :=
  (padLen msg_len).map fun pad_len => intSum (msg_len + 1 + pad_len + 4)

/-- The value of `const uint64_t L = msg_len * 8`: the 32-bit `int` product converted to
`uint64_t`. -/
def bitLen (msg_len : Int) : Nat := ((wrapInt (msg_len * 8)) % 2 ^ 64).toNat

/-- One pass through the body of the inner loop, without the two increments: the contents
of `chunk` after the `if`/`else if` chain at buffer position `j` and stream index `i`. -/
def fillByte (msg : List Nat) (msg_len tot_len : Int) (L : Nat) (j : Nat) (i : Int)
    (chunk : List Nat) : List Nat :=
  if i < msg_len then chunk.set j (msg.getD i.toNat 0)
  else if i = msg_len then chunk.set j 0x80
  else if i < tot_len - 4 then chunk.set j 0x00
  else if i = tot_len - 4 then chunk.set j (toByte (L >>> 0x18))
  else if i = tot_len - 3 then chunk.set j (toByte (L >>> 0x10))
  else if i = tot_len - 2 then chunk.set j (toByte (L >>> 0x08))
  else if i = tot_len - 1 then chunk.set j (toByte (L >>> 0x00))
  else chunk

/-- The inner loop (`j = 0; while (j < 64)`): `n` iterations are left; returns the buffer
and the advanced stream index. -/
def fillChunk (msg : List Nat) (msg_len tot_len : Int) (L : Nat) :
    Nat → Nat → Int → List Nat → List Nat × Int
  | 0, _, i, chunk => (chunk, i)
  | n + 1, j, i, chunk =>
    fillChunk msg msg_len tot_len L n (j + 1) (i + 1)
      (fillByte msg msg_len tot_len L j i chunk)

/-- The outer loop (`i = 0; while (i < tot_len)`), started at stream index `i` with buffer
`chunk`.  The loop is written once for any action `call` on the filled buffer: `sha256`
runs it with `call = sha256_chunk` on the state `hash`.  The final state, or `none` when the
fuel runs out. -/
def blockLoop {σ : Type} (call : σ → List Nat → σ) (msg : List Nat) (msg_len tot_len : Int)
    (L : Nat) : Nat → Int → List Nat → σ → Option σ
  | 0, _, _, _ => none
  | fuel + 1, i, chunk, hash =>
    if i < tot_len then
      let r := fillChunk msg msg_len tot_len L 64 0 i chunk
      blockLoop call msg msg_len tot_len L fuel r.2 r.1 (call hash r.1)
    else some hash

/-- The last loop of `sha256` (`i = 0; while (i < 8)`): `n` iterations are left. -/
def writeDigest (hash : List Nat) : Nat → Nat → List Nat → List Nat
  | 0, _, digest => digest
  | n + 1, i, digest =>
    writeDigest hash n (i + 1)
      ((((digest.set (4 * i + 0) (toByte (hash.getD i 0 >>> 0x18))).set
        (4 * i + 1) (toByte (hash.getD i 0 >>> 0x10))).set
        (4 * i + 2) (toByte (hash.getD i 0 >>> 0x08))).set
        (4 * i + 3) (toByte (hash.getD i 0 >>> 0x00)))

/-- Function `sha256(digest, msg, msg_len)`: the 32 bytes left in `digest`.  The block
loop gets `tot_len + 1` units of fuel (every pass advances `i` by 64). -/
def sha256 (msg : List Nat) (msg_len : Int) : Option (List Nat) :=
  match totLen msg_len with
  | none => none
  | some tot_len =>
    match blockLoop sha256_chunk msg msg_len tot_len (bitLen msg_len) (tot_len.toNat + 1) 0
        (List.replicate 64 0) seed with
    | none => none
    | some hash => some (writeDigest hash 8 0 (List.replicate 32 0))

/-- The buffers `sha256` passes to `sha256_chunk`, in call order: the block loop of `sha256`
with the call replaced by recording its second argument. -/
def fedBlocks (msg : List Nat) (msg_len : Int) : Option (List (List Nat)) :=
  match totLen msg_len with
  | none => none
  | some tot_len =>
    blockLoop (fun acc chunk => acc ++ [chunk]) msg msg_len tot_len (bitLen msg_len)
      (tot_len.toNat + 1) 0 (List.replicate 64 0) []

/-- The stream `sha256` generates: the concatenation of the buffers passed to
`sha256_chunk`. -/
def fedStream (msg : List Nat) (msg_len : Int) : Option (List Nat) :=
  (fedBlocks msg msg_len).map List.flatten

/-- The last `n` entries of a list. -/
def lastBytes (n : Nat) (s : List Nat) : List Nat := s.drop (s.length - n)

/-- The `n`-byte big-endian encoding of `x` modulo `2 ^ (8 * n)`. -/
def bigEndian : Nat → Nat → List Nat
  | 0, _ => []
  | n + 1, x => toByte (x >>> (8 * n)) :: bigEndian n x

/-- A number `p` is the least non-negative count of zero bytes for which a message of `L`
bytes, the marker byte, `p` zero bytes and a trailer of `trailer` bytes fill whole 64-byte
blocks. -/
def IsMinPad (trailer L p : Int) : Prop :=
  0 ≤ p ∧ (L + 1 + p + trailer) % 64 = 0 ∧
    ∀ q : Int, 0 ≤ q → (L + 1 + q + trailer) % 64 = 0 → p ≤ q

/-! ## The inputs of the self-test (`main`) -/

/-- The bytes of an ASCII string. -/
def ascii (s : String) : List Nat := s.toList.map Char.toNat

/-- The input of the fourth test: `"The quick brown fox jumps over the lazy dog."`. -/
def testPangram : List Nat :=
  [0x54, 0x68, 0x65, 0x20, 0x71, 0x75, 0x69, 0x63, 0x6b, 0x20, 0x62, 0x72, 0x6f, 0x77, 0x6e, 0x20,
   0x66, 0x6f, 0x78, 0x20, 0x6a, 0x75, 0x6d, 0x70, 0x73, 0x20, 0x6f, 0x76, 0x65, 0x72, 0x20, 0x74,
   0x68, 0x65, 0x20, 0x6c, 0x61, 0x7a, 0x79, 0x20, 0x64, 0x6f, 0x67, 0x2e]

/-- The 16 bytes `4dfbde451f444d2c2a6e3afe4c543fe6` the input of the seventh test repeats. -/
def testPeriod : List Nat :=
  [0x4d, 0xfb, 0xde, 0x45, 0x1f, 0x44, 0x4d, 0x2c, 0x2a, 0x6e, 0x3a, 0xfe, 0x4c, 0x54, 0x3f, 0xe6]

/-- The input of the seventh test: `testPeriod` 15 times, then one zero byte (241 bytes). -/
def testLong : List Nat :=
  (List.replicate 15 testPeriod).flatten ++ [0x00]

/-! ## Reference: SHA-256 as FIPS 180-4 defines it

Written from the standard (sections 4.1.2, 5.1.1, 5.3.3, 6.2), not from `sha256.c`; only the
table of round constants is shared. -/

namespace FIPS

/-- Addition modulo `2 ^ 32`. -/
def add32 (x y : Nat) : Nat := (x + y) % 2 ^ 32

/-- Circular right shift of a 32-bit word by `n` places, `0 < n < 32`. -/
def rotr (n x : Nat) : Nat := (x >>> n) ||| ((x <<< (32 - n)) % 2 ^ 32)

/-- Function `Ch(x, y, z) = (x ∧ y) ⊕ (¬x ∧ z)`. -/
def Ch (x y z : Nat) : Nat := (x &&& y) ^^^ ((2 ^ 32 - 1 - x) &&& z)

/-- Function `Maj(x, y, z) = (x ∧ y) ⊕ (x ∧ z) ⊕ (y ∧ z)`. -/
def Maj (x y z : Nat) : Nat := (x &&& y) ^^^ (x &&& z) ^^^ (y &&& z)

/-- Function `Σ₀`. -/
def bigSigma0 (x : Nat) : Nat := rotr 2 x ^^^ rotr 13 x ^^^ rotr 22 x

/-- Function `Σ₁`. -/
def bigSigma1 (x : Nat) : Nat := rotr 6 x ^^^ rotr 11 x ^^^ rotr 25 x

/-- Function `σ₀`. -/
def smallSigma0 (x : Nat) : Nat := rotr 7 x ^^^ rotr 18 x ^^^ (x >>> 3)

/-- Function `σ₁`. -/
def smallSigma1 (x : Nat) : Nat := rotr 17 x ^^^ rotr 19 x ^^^ (x >>> 10)

/-- The padded message: the message, the byte `0x80`, the least number of zero bytes, and
the bit length as a 64-bit big-endian integer, a multiple of 64 bytes in all. -/
def pad (msg : List Nat) : List Nat :=
  msg ++ [0x80] ++ List.replicate ((119 - msg.length % 64) % 64) 0
    ++ bigEndian 8 (8 * msg.length)

/-- The first `n` 64-byte blocks of a stream. -/
def blocks : Nat → List Nat → List (List Nat)
  | 0, _ => []
  | n + 1, s => s.take 64 :: blocks n (s.drop 64)

/-- The 16 big-endian words `M₀ .. M₁₅` of a block. -/
def blockWords : Nat → List Nat → List Nat
  | 0, _ => []
  | n + 1, bs =>
    (bs.getD 0 0 * 2 ^ 24 + bs.getD 1 0 * 2 ^ 16 + bs.getD 2 0 * 2 ^ 8 + bs.getD 3 0)
      :: blockWords n (bs.drop 4)

/-- Appends `n` further words `W_t = σ₁(W_{t-2}) + W_{t-7} + σ₀(W_{t-15}) + W_{t-16}`. -/
def expand : Nat → List Nat → List Nat
  | 0, W => W
  | n + 1, W =>
    let t := W.length
    expand n (W ++ [add32 (add32 (add32 (smallSigma1 (W.getD (t - 2) 0)) (W.getD (t - 7) 0))
      (smallSigma0 (W.getD (t - 15) 0))) (W.getD (t - 16) 0)])

/-- The message schedule `W₀ .. W₆₃` of a block. -/
def messageSchedule (block : List Nat) : List Nat := expand 48 (blockWords 16 block)

/-- Step `t` of the hash computation on the working variables `[a, b, c, d, e, f, g, h]`. -/
def step (W : List Nat) (v : List Nat) (t : Nat) : List Nat :=
  match v with
  | [a, b, c, d, e, f, g, h] =>
    let T1 := add32 (add32 (add32 (add32 h (bigSigma1 e)) (Ch e f g)) (SHA256_K.getD t 0))
      (W.getD t 0)
    let T2 := add32 (bigSigma0 a) (Maj a b c)
    [add32 T1 T2, a, b, c, add32 d T1, e, f, g]
  | _ => v

/-- The intermediate hash value after one block. -/
def compress (H block : List Nat) : List Nat :=
  List.zipWith add32 ((List.range 64).foldl (step (messageSchedule block)) H) H

/-- The initial hash value `H⁽⁰⁾`. -/
def H0 : List Nat :=
  [0x6a09e667, 0xbb67ae85, 0x3c6ef372, 0xa54ff53a,
   0x510e527f, 0x9b05688c, 0x1f83d9ab, 0x5be0cd19]

/-- The message digest: the final hash value, each word as four big-endian bytes. -/
def digest (msg : List Nat) : List Nat :=
  (((blocks ((pad msg).length / 64) (pad msg)).foldl compress H0).map (bigEndian 4)).flatten

end FIPS

/-! ## The stream of the code as a whole -/

/-- The byte the `if`/`else if` chain of the inner loop stores for stream index `i`
(and 0 when no branch fires, which leaves the buffer as it was). -/
def streamAt (msg : List Nat) (msg_len tot_len : Int) (L : Nat) (i : Int) : Nat :=
  if i < msg_len then msg.getD i.toNat 0
  else if i = msg_len then 0x80
  else if i < tot_len - 4 then 0x00
  else if i = tot_len - 4 then toByte (L >>> 0x18)
  else if i = tot_len - 3 then toByte (L >>> 0x10)
  else if i = tot_len - 2 then toByte (L >>> 0x08)
  else if i = tot_len - 1 then toByte (L >>> 0x00)
  else 0

/-- The 64 stream bytes from index `i` on. -/
def streamBlock (msg : List Nat) (msg_len tot_len : Int) (L : Nat) (i : Int) : List Nat :=
  (List.range 64).map fun k => streamAt msg msg_len tot_len L (i + (k : Nat))

/-- The `m` consecutive 64-byte blocks of the stream from index `i` on. -/
def streamBlocks (msg : List Nat) (msg_len tot_len : Int) (L : Nat) :
    Int → Nat → List (List Nat)
  | _, 0 => []
  | i, m + 1 => streamBlock msg msg_len tot_len L i
      :: streamBlocks msg msg_len tot_len L (i + 64) m

/-- The stream `sha256` generates for a message that fits, in closed form: the message,
the byte `0x80`, `pad_len` zero bytes, and the low 32 bits of the bit length as four
big-endian bytes.  This is the framing of the code, not the padded stream of the
specification, which is `FIPS.pad`. -/
def codeStream (msg : List Nat) : List Nat :=
  msg ++ [0x80] ++ List.replicate ((-((msg.length : Int) + 5)) % 64).toNat 0
    ++ bigEndian 4 (8 * msg.length)

/-- The big-endian serialisation of a list of words, four bytes each. -/
def serialise (hash : List Nat) : List Nat := (hash.map (bigEndian 4)).flatten

/-- The state `hash` at the end of the block loop of `sha256`. -/
def finalHash (msg : List Nat) (msg_len : Int) : Option (List Nat) :=
  match totLen msg_len with
  | none => none
  | some tot_len =>
    blockLoop sha256_chunk msg msg_len tot_len (bitLen msg_len) (tot_len.toNat + 1) 0
      (List.replicate 64 0) seed

/-- The number of 64-byte blocks that hold a message of `L` bytes, the marker byte and the
4-byte trailer. -/
def numBlocks (L : Int) : Nat := ((L + 68) / 64).toNat

/-- A list is a state of `sha256`: eight entries of type `word`. -/
def IsState (hash : List Nat) : Prop := hash.length = 8 ∧ ∀ x ∈ hash, x < 2 ^ 32

/-- A list is a 64-byte block. -/
def IsBlock (chunk : List Nat) : Prop := chunk.length = 64 ∧ ∀ b ∈ chunk, b < 2 ^ 8

/-! ## The loops of `sha256_chunk` with their guards -/

/-- The second loop of `sha256_chunk` as the `while (i < 64)` it is written as, from
counter `i`, counting the passes made in `steps`; `none` when the fuel runs out. -/
def extendWhile : Nat → Nat → List Nat → Nat → Option (List Nat × Nat)
  | 0, _, _, _ => none
  | fuel + 1, i, w, steps =>
    if i < 64 then
      let s0 := ROTR (w.getD (i - 15) 0) 7 ^^^ ROTR (w.getD (i - 15) 0) 18
                  ^^^ (w.getD (i - 15) 0 >>> 3)
      let s1 := ROTR (w.getD (i - 2) 0) 17 ^^^ ROTR (w.getD (i - 2) 0) 19
                  ^^^ (w.getD (i - 2) 0 >>> 10)
      extendWhile fuel (i + 1)
        (w.set i (toWord (w.getD (i - 16) 0 + s0 + w.getD (i - 7) 0 + s1))) (steps + 1)
    else some (w, steps)

/-- The third loop of `sha256_chunk` as the `while (i < 64)` it is written as, from
counter `i`, counting the passes made in `steps`; `none` when the fuel runs out. -/
def roundsWhile (w : List Nat) : Nat → Nat → Vars → Nat → Option (Vars × Nat)
  | 0, _, _, _ => none
  | fuel + 1, i, v, steps =>
    if i < 64 then roundsWhile w fuel (i + 1) (round w i v) (steps + 1)
    else some (v, steps)

/-- Function `sha256_chunk` with its second and third loop run as the guarded `while`
loops they are written as, each with `fuel`: the new contents of `hash` and the numbers of
passes the two loops made; `none` when the fuel of a loop runs out. -/
def sha256_chunk_counted (fuel : Nat) (hash chunk : List Nat) : Option (List Nat × Nat × Nat) :=
  match extendWhile fuel 16 (loadWords chunk 16 0 (List.replicate 64 0)) 0 with
  | none => none
  | some (w, extended) =>
    match roundsWhile w fuel 0
        { a := hash.getD 0 0, b := hash.getD 1 0, c := hash.getD 2 0, d := hash.getD 3 0,
          e := hash.getD 4 0, f := hash.getD 5 0, g := hash.getD 6 0, h := hash.getD 7 0 } 0 with
    | none => none
    | some (v, mixed) =>
      some ([toWord (hash.getD 0 0 + v.a), toWord (hash.getD 1 0 + v.b),
             toWord (hash.getD 2 0 + v.c), toWord (hash.getD 3 0 + v.d),
             toWord (hash.getD 4 0 + v.e), toWord (hash.getD 5 0 + v.f),
             toWord (hash.getD 6 0 + v.g), toWord (hash.getD 7 0 + v.h)], extended, mixed)

/-- The call of `sha256_chunk` in the block loop, with the loops of `sha256_chunk` guarded:
the new state, and the log of passes extended by those of this call; `none` once the fuel
of a loop has run out. -/
def callCounted (fuel : Nat) (st : Option (List Nat × List (Nat × Nat))) (chunk : List Nat) :
    Option (List Nat × List (Nat × Nat)) :=
  match st with
  | none => none
  | some (hash, log) =>
    match sha256_chunk_counted fuel hash chunk with
    | none => none
    | some (hash', extended, mixed) => some (hash', log ++ [(extended, mixed)])

/-- The run of `sha256` up to the digest loop, with the loops of `sha256_chunk` guarded:
the final state and, for each call of `sha256_chunk` in order, the numbers of passes its
schedule loop and its round loop made. -/
def sha256_counted (fuel : Nat) (msg : List Nat) (msg_len : Int) :
    Option (List Nat × List (Nat × Nat)) :=
  match totLen msg_len with
  | none => none
  | some tot_len =>
    match blockLoop (callCounted fuel) msg msg_len tot_len (bitLen msg_len) (tot_len.toNat + 1) 0
        (List.replicate 64 0) (some (seed, [])) with
    | none => none
    | some r => r

/-! ## Names for parts of `sha256_chunk` -/

/-- The value `s0` of the second loop of `sha256_chunk` for the word `x = w[i - 15]`. -/
def s0 (x : Nat) : Nat := ROTR x 7 ^^^ ROTR x 18 ^^^ (x >>> 3)

/-- The value `s1` of the second loop of `sha256_chunk` for the word `x = w[i - 2]`. -/
def s1 (x : Nat) : Nat := ROTR x 17 ^^^ ROTR x 19 ^^^ (x >>> 10)

/-- The working variables as the list `[a, b, c, d, e, f, g, h]`. -/
def Vars.toList (v : Vars) : List Nat := [v.a, v.b, v.c, v.d, v.e, v.f, v.g, v.h]

/-! ## Properties -/

/-! ### The padding search -/

/-- The remainder of C and the Euclidean remainder vanish together. -/
theorem tmod_64_eq_zero_iff (x : Int) : x.tmod 64 = 0 ↔ x % 64 = 0 := by
  constructor
  · intro h
    exact Int.emod_eq_zero_of_dvd (Int.dvd_of_tmod_eq_zero h)
  · intro h
    exact Int.tmod_eq_zero_of_dvd (Int.dvd_of_emod_eq_zero h)

/-- Wrap-around does not change the remainder modulo 64. -/
theorem wrapInt_emod_64 (x : Int) : wrapInt x % 64 = x % 64 := by
  unfold wrapInt
  omega

/-- The guard of the padding search vanishes exactly when the exact sum is a multiple
of 64, whether or not the sum wraps around. -/
theorem intSum_tmod_64 (s : Int) : (intSum s).tmod 64 = 0 ↔ s % 64 = 0 := by
  rw [tmod_64_eq_zero_iff]
  unfold intSum
  split
  · rw [wrapInt_emod_64]
  · rfl

/-- A sum that fits is not changed. -/
theorem intSum_eq_self (s : Int) (h : s ≤ INT_MAX) : intSum s = s := by
  unfold intSum
  rw [if_neg (by omega)]

/-- For the sums an `int` operand can give, `intSum` is the two's complement
wrap-around. -/
theorem intSum_eq_wrapInt (s : Int) (h : INT_MIN ≤ s) : intSum s = wrapInt s := by
  unfold intSum wrapInt INT_MAX INT_MIN at *
  split <;> omega

/-- The search started at `p` stops at the first `p + k` that fills a whole block, when the
fuel exceeds `k`. -/
theorem padLoop_found (L : Int) : ∀ (k fuel : Nat) (p : Int), k < fuel →
    (L + 1 + (p + k) + 4) % 64 = 0 →
    (∀ j : Nat, j < k → (L + 1 + (p + j) + 4) % 64 ≠ 0) →
    padLoop L fuel p = some (p + k) := by
  intro k
  induction k with
  | zero =>
    intro fuel p hf h0 _
    obtain ⟨f, rfl⟩ : ∃ f, fuel = f + 1 := ⟨fuel - 1, by omega⟩
    have hz : (intSum (L + 1 + p + 4)).tmod 64 = 0 := (intSum_tmod_64 _).2 (by simpa using h0)
    simp [padLoop, hz]
  | succ k ih =>
    intro fuel p hf h0 hmin
    obtain ⟨f, rfl⟩ : ∃ f, fuel = f + 1 := ⟨fuel - 1, by omega⟩
    have hne : (intSum (L + 1 + p + 4)).tmod 64 ≠ 0 := by
      intro h
      have h1 := hmin 0 (by omega)
      exact h1 (by simpa using (intSum_tmod_64 _).1 h)
    have hrec := ih f (p + 1) (by omega)
      (by have e : p + 1 + (k : Int) = p + ((k + 1 : Nat) : Int) := by push_cast; ring
          rw [e]; exact h0)
      (by intro j hj
          have h1 := hmin (j + 1) (by omega)
          have e : p + 1 + (j : Int) = p + ((j + 1 : Nat) : Int) := by push_cast; ring
          rw [e]; exact h1)
    have e : p + 1 + (k : Int) = p + ((k + 1 : Nat) : Int) := by push_cast; ring
    rw [e] at hrec
    simp [padLoop, hne, hrec]

/-- Closed form of `pad_len`, for every `msg_len`. -/
theorem padLen_eq (L : Int) : padLen L = some ((-(L + 5)) % 64) := by
  have hk : (((-(L + 5)) % 64).toNat : Int) = (-(L + 5)) % 64 :=
    Int.toNat_of_nonneg (by omega)
  have h := padLoop_found L ((-(L + 5)) % 64).toNat 64 0 (by omega) (by omega)
    (by intro j hj; omega)
  rw [hk] at h
  simpa [padLen] using h

/-- Closed form of `tot_len`, for every `msg_len`. -/
theorem totLen_eq (L : Int) : totLen L = some (intSum (L + 1 + (-(L + 5)) % 64 + 4)) := by
  simp [totLen, padLen_eq]

/-- The value of `tot_len` is a multiple of 64 for every `msg_len`, wrapped or not. -/
theorem totLen_emod (L : Int) : ∃ t, totLen L = some t ∧ t % 64 = 0 := by
  refine ⟨_, totLen_eq L, ?_⟩
  have h : (L + 1 + (-(L + 5)) % 64 + 4) % 64 = 0 := by omega
  exact (tmod_64_eq_zero_iff _).1 ((intSum_tmod_64 _).2 h)

/-- The search ends for every `msg_len`, after at most 63 increments. -/
theorem padLen_bounds (L : Int) : ∃ p, padLen L = some p ∧ 0 ≤ p ∧ p ≤ 63 := by
  refine ⟨_, padLen_eq L, ?_, ?_⟩
  · omega
  · omega

/-! ### The digests of concrete messages -/

/-- C1, at the failing input: for the message of 56 zero bytes `sha256` writes
`bb23ef42…372e`, while the SHA-256 digest of FIPS 180-4 for that message is `d4817aa5…9fbb`. -/
theorem sha256_zeros56_differs_from_fips :
    sha256 (List.replicate 56 0) 56 = some
      [0xbb, 0x23, 0xef, 0x42, 0xd6, 0x14, 0x12, 0x2d, 0x1e, 0x6f, 0x9f, 0xd2, 0x0e, 0x8b, 0x4c, 0xb3,
       0x8a, 0x76, 0x42, 0xff, 0xf5, 0x3f, 0xfe, 0xa8, 0x79, 0x67, 0x9e, 0xa1, 0xbb, 0x98, 0x37, 0x2e] ∧
    FIPS.digest (List.replicate 56 0) =
      [0xd4, 0x81, 0x7a, 0xa5, 0x49, 0x76, 0x28, 0xe7, 0xc7, 0x7e, 0x6b, 0x60, 0x61, 0x07, 0x04, 0x2b,
       0xbb, 0xa3, 0x13, 0x08, 0x88, 0xc5, 0xf4, 0x7a, 0x37, 0x5e, 0x61, 0x79, 0xbe, 0x78, 0x9f, 0xbb] ∧
    sha256 (List.replicate 56 0) 56 ≠ some (FIPS.digest (List.replicate 56 0)) := by
  decide!

/-- C2: for the empty message (`msg_len = 0`) `sha256` returns the digest
`e3b0c44298fc1c149afbf4c8996fb92427ae41e4649b934ca495991b7852b855`. -/
theorem sha256_empty :
    sha256 [] 0 = some
      [0xe3, 0xb0, 0xc4, 0x42, 0x98, 0xfc, 0x1c, 0x14, 0x9a, 0xfb, 0xf4, 0xc8, 0x99, 0x6f, 0xb9, 0x24,
       0x27, 0xae, 0x41, 0xe4, 0x64, 0x9b, 0x93, 0x4c, 0xa4, 0x95, 0x99, 0x1b, 0x78, 0x52, 0xb8, 0x55] := by
  decide!

/-- C3: `sha256` returns the published digests of the single byte `0x00`, of `"abc"`, and of
`"The quick brown fox jumps over the lazy dog."` (the 44 bytes `54 68 65 … 67 2e`). -/
theorem sha256_short_vectors :
    sha256 [0x00] 1 = some
      [0x6e, 0x34, 0x0b, 0x9c, 0xff, 0xb3, 0x7a, 0x98, 0x9c, 0xa5, 0x44, 0xe6, 0xbb, 0x78, 0x0a, 0x2c,
       0x78, 0x90, 0x1d, 0x3f, 0xb3, 0x37, 0x38, 0x76, 0x85, 0x11, 0xa3, 0x06, 0x17, 0xaf, 0xa0, 0x1d] ∧
    ascii "abc" = [0x61, 0x62, 0x63] ∧
    sha256 (ascii "abc") 3 = some
      [0xba, 0x78, 0x16, 0xbf, 0x8f, 0x01, 0xcf, 0xea, 0x41, 0x41, 0x40, 0xde, 0x5d, 0xae, 0x22, 0x23,
       0xb0, 0x03, 0x61, 0xa3, 0x96, 0x17, 0x7a, 0x9c, 0xb4, 0x10, 0xff, 0x61, 0xf2, 0x00, 0x15, 0xad] ∧
    ascii "The quick brown fox jumps over the lazy dog." = testPangram ∧
    testPangram.length = 44 ∧
    sha256 testPangram 44 = some
      [0xef, 0x53, 0x7f, 0x25, 0xc8, 0x95, 0xbf, 0xa7, 0x82, 0x52, 0x65, 0x29, 0xa9, 0xb6, 0x3d, 0x97,
       0xaa, 0x63, 0x15, 0x64, 0xd5, 0xd7, 0x89, 0xc2, 0xb7, 0x65, 0x44, 0x8c, 0x86, 0x35, 0xfb, 0x6c] := by
  decide!

/-- C4, as claimed, fails: the digest of 64 zero bytes is not `1ebb2bdc…4f3a`. -/
theorem sha256_zeros64_ne_claimed :
    sha256 (List.replicate 64 0) 64 ≠ some
      [0x1e, 0xbb, 0x2b, 0xdc, 0x5c, 0xe0, 0x8e, 0x6e, 0x90, 0xb3, 0xed, 0xe7, 0x2a, 0x8e, 0xf3, 0x15,
       0xe3, 0xe1, 0xbc, 0xed, 0x3a, 0x3c, 0x45, 0x8f, 0x69, 0xb6, 0xd7, 0xee, 0xff, 0x9e, 0x4f, 0x3a] := by
  decide!

/-- C4, amended: for the message of 64 zero bytes (`msg_len = 64`) `sha256` returns the
digest `f5a5fd42d16a20302798ef6ed309979b43003d2320d9f0e8ea9831a92759fb4b`. -/
theorem sha256_zeros64 :
    sha256 (List.replicate 64 0) 64 = some
      [0xf5, 0xa5, 0xfd, 0x42, 0xd1, 0x6a, 0x20, 0x30, 0x27, 0x98, 0xef, 0x6e, 0xd3, 0x09, 0x97, 0x9b,
       0x43, 0x00, 0x3d, 0x23, 0x20, 0xd9, 0xf0, 0xe8, 0xea, 0x98, 0x31, 0xa9, 0x27, 0x59, 0xfb, 0x4b] := by
  decide!

/-- C5, as claimed, fails: the digest of 65 zero bytes is not `f5a5fd42…fb4b`. -/
theorem sha256_zeros65_ne_claimed :
    sha256 (List.replicate 65 0) 65 ≠ some
      [0xf5, 0xa5, 0xfd, 0x42, 0xd1, 0x6a, 0x20, 0x30, 0x27, 0x98, 0xef, 0x6e, 0xd3, 0x09, 0x97, 0x9b,
       0x43, 0x00, 0x3d, 0x23, 0x20, 0xd9, 0xf0, 0xe8, 0xea, 0x98, 0x31, 0xa9, 0x27, 0x59, 0xfb, 0x4b] := by
  decide!

/-- C5, amended: for the message of 65 zero bytes (`msg_len = 65`) `sha256` returns the
digest `98ce42deef51d40269d542f5314bef2c7468d401ad5d85168bfab4c0108f75f7`. -/
theorem sha256_zeros65 :
    sha256 (List.replicate 65 0) 65 = some
      [0x98, 0xce, 0x42, 0xde, 0xef, 0x51, 0xd4, 0x02, 0x69, 0xd5, 0x42, 0xf5, 0x31, 0x4b, 0xef, 0x2c,
       0x74, 0x68, 0xd4, 0x01, 0xad, 0x5d, 0x85, 0x16, 0x8b, 0xfa, 0xb4, 0xc0, 0x10, 0x8f, 0x75, 0xf7] := by
  decide!

/-- C6: on the inputs of the self-test's last three vectors `sha256` returns the digest the
test expects: 62 zero bytes, 64 zero bytes, and the 241 bytes of `testLong`. -/
theorem sha256_selftest_long_vectors :
    sha256 (List.replicate 62 0) 62 = some
      [0x1e, 0xbb, 0x2b, 0xdc, 0x5c, 0xe0, 0x8e, 0x6e, 0x90, 0xb3, 0xed, 0xe7, 0x2a, 0x8e, 0xf3, 0x15,
       0xe3, 0xe1, 0xbc, 0xed, 0x3a, 0x3c, 0x45, 0x8f, 0x69, 0xb6, 0xd7, 0xee, 0xff, 0x9e, 0x4f, 0x3a] ∧
    sha256 (List.replicate 64 0) 64 = some
      [0xf5, 0xa5, 0xfd, 0x42, 0xd1, 0x6a, 0x20, 0x30, 0x27, 0x98, 0xef, 0x6e, 0xd3, 0x09, 0x97, 0x9b,
       0x43, 0x00, 0x3d, 0x23, 0x20, 0xd9, 0xf0, 0xe8, 0xea, 0x98, 0x31, 0xa9, 0x27, 0x59, 0xfb, 0x4b] ∧
    testLong.length = 241 ∧
    sha256 testLong 241 = some
      [0xf4, 0x08, 0xef, 0x6c, 0xd5, 0x7f, 0x6a, 0x22, 0xa5, 0x04, 0xe4, 0x40, 0x72, 0x2f, 0xe8, 0xaa,
       0x94, 0x62, 0xab, 0x8c, 0xf7, 0x04, 0x80, 0xfd, 0x52, 0xfc, 0x06, 0xac, 0xfb, 0x44, 0xa2, 0xc3] := by
  decide!

/-! ### Padding and framing -/

/-- C7, as claimed, fails for the empty message: `pad_len` is 59 there, and
`0 + 1 + 59 + 8` is not a multiple of 64. -/
theorem padLen_zero_not_min_for_8 : ¬ ∃ p, padLen 0 = some p ∧ IsMinPad 8 0 p := by
  rintro ⟨p, hp, -, h, -⟩
  rw [padLen_eq] at hp
  obtain rfl : (-(0 + 5) : Int) % 64 = p := by simpa using hp
  revert h
  decide

/-- C7, amended: for every message length `L ≥ 0` with `L mod 64` not in
`{56, 57, 58, 59}` the search ends and `pad_len = p + 4`, where `p` is the least `p ≥ 0`
such that `L + 1 + p + 8` is a multiple of 64: the code counts the four zero bytes of the
upper half of the 64-bit length as padding. -/
theorem padLen_eq_minPad_add_four (L : Int) (_hL : 0 ≤ L) (hmod : L % 64 ∉ [56, 57, 58, 59]) :
    ∃ p, IsMinPad 8 L p ∧ padLen L = some (p + 4) := by
  simp only [List.mem_cons, List.mem_singleton, List.not_mem_nil, or_false, not_or] at hmod
  refine ⟨(-(L + 9)) % 64, ⟨?_, ?_, ?_⟩, ?_⟩
  · omega
  · omega
  · intro q hq hq64
    omega
  · rw [padLen_eq]
    congr 1
    omega

/-- The amended C7 for the empty message: `p = 55` and `pad_len = 59`. -/
theorem padLen_eq_minPad_add_four_witness :
    (0 : Int) ≤ 0 ∧ (0 : Int) % 64 ∉ [56, 57, 58, 59] ∧
      ∃ p, IsMinPad 8 0 p ∧ padLen 0 = some (p + 4) :=
  ⟨by decide, by decide, padLen_eq_minPad_add_four 0 (by decide) (by decide)⟩

/-- C8, at the failing input: for the message of 56 zero bytes the last 8 bytes fed to the
compression function are `80 00 00 00 00 00 01 c0`, while `56 * 8` as a 64-bit big-endian
integer is `00 00 00 00 00 00 01 c0`. -/
theorem fedStream_zeros56_last8 :
    (fedStream (List.replicate 56 0) 56).map (lastBytes 8)
      = some [0x80, 0x00, 0x00, 0x00, 0x00, 0x00, 0x01, 0xc0] ∧
    bigEndian 8 (56 * 8) = [0x00, 0x00, 0x00, 0x00, 0x00, 0x00, 0x01, 0xc0] ∧
    (fedStream (List.replicate 56 0) 56).map (lastBytes 8) ≠ some (bigEndian 8 (56 * 8)) := by
  decide!

/-- C9, as claimed, fails at the length 2147483580: `pad_len` is 63, the sum
`2147483580 + 1 + 63 + 4 = 2147483648` exceeds `INT_MAX` and wraps, and `tot_len` is
`-2147483648`, not a positive multiple of 64. -/
theorem totLen_wraps_at_2147483580 :
    (0 : Int) ≤ 2147483580 ∧ padLen 2147483580 = some 63 ∧
    totLen 2147483580 = some (-2147483648) ∧
    ¬ ∃ t, totLen 2147483580 = some t ∧ t % 64 = 0 ∧ 64 ≤ t := by
  have h : totLen 2147483580 = some (-2147483648) := by decide!
  refine ⟨by decide, by decide!, h, ?_⟩
  rintro ⟨t, ht, -, h64⟩
  rw [h] at ht
  obtain rfl : (-2147483648 : Int) = t := by simpa using ht
  revert h64
  decide

/-- C9, amended: for every message length `L` with `0 ≤ L ≤ INT_MAX - 68 = 2147483579`,
`tot_len` is defined, a multiple of 64 and at least 64; it is 64 for the empty message. -/
theorem totLen_pos_multiple (L : Int) (hL : 0 ≤ L) (hmax : L + 68 ≤ INT_MAX) :
    ∃ t, totLen L = some t ∧ t % 64 = 0 ∧ t.tmod 64 = 0 ∧ 64 ≤ t ∧ (L = 0 → t = 64) := by
  have hm : (L + 1 + (-(L + 5)) % 64 + 4) % 64 = 0 := by omega
  have hfit : intSum (L + 1 + (-(L + 5)) % 64 + 4) = L + 1 + (-(L + 5)) % 64 + 4 :=
    intSum_eq_self _ (by omega)
  refine ⟨_, totLen_eq L, ?_, ?_, ?_, ?_⟩
  · rw [hfit]; exact hm
  · rw [hfit]; exact (tmod_64_eq_zero_iff _).2 hm
  · rw [hfit]; omega
  · rintro rfl
    decide

/-- The amended C9 at the largest length it covers, 2147483579: `tot_len` is
2147483584. -/
theorem totLen_pos_multiple_witness :
    (0 : Int) ≤ 2147483579 ∧ (2147483579 : Int) + 68 ≤ INT_MAX ∧
      ∃ t, totLen 2147483579 = some t ∧ t % 64 = 0 ∧ t.tmod 64 = 0 ∧ 64 ≤ t ∧
        ((2147483579 : Int) = 0 → t = 64) :=
  ⟨by decide, by decide, totLen_pos_multiple 2147483579 (by decide) (by decide)⟩

/-- C10, at the failing input: the length 56 is within 8 bytes of the block boundary, yet
for 56 zero bytes `tot_len` is 64 and `sha256_chunk` is called once, not
`56 / 64 + 2 = 2` times. -/
theorem fedBlocks_zeros56_one_block :
    (56 : Int) % 64 ≥ 56 ∧ totLen 56 = some 64 ∧
    (fedBlocks (List.replicate 56 0) 56).map List.length = some 1 ∧
    (1 : Nat) ≠ 56 / 64 + 2 := by
  decide!

/-! ### Lists as arrays -/

/-- Reading the entry just written. -/
theorem getD_set_eq (l : List Nat) (i x : Nat) (h : i < l.length) :
    (l.set i x).getD i 0 = x := by
  simp [List.getElem?_set, h]

/-- Reading another entry than the one written. -/
theorem getD_set_ne (l : List Nat) (i j x : Nat) (h : i ≠ j) :
    (l.set i x).getD j 0 = l.getD j 0 := by
  simp [List.getElem?_set_ne h]

/-- Reading past the end gives the default. -/
theorem getD_of_length_le (l : List Nat) (q : Nat) (h : l.length ≤ q) : l.getD q 0 = 0 := by
  simp [List.getElem?_eq_none h]

/-- Two lists of one length with the same entries are equal. -/
theorem ext_getD (l₁ l₂ : List Nat) (hl : l₁.length = l₂.length)
    (h : ∀ q, q < l₁.length → l₁.getD q 0 = l₂.getD q 0) : l₁ = l₂ := by
  apply List.ext_get hl
  intro n h1 h2
  have := h n h1
  simpa [List.getD_eq_getElem?_getD, List.getElem?_eq_getElem h1,
    List.getElem?_eq_getElem h2] using this

/-! ### The chunk fill loop -/

/-- For a stream index below `tot_len` a branch of the chain fires: the pass stores
`streamAt` at position `j`. -/
theorem fillByte_eq_set (msg : List Nat) (msg_len tot_len : Int) (L : Nat) (j : Nat) (i : Int)
    (chunk : List Nat) (hi : i < tot_len) :
    fillByte msg msg_len tot_len L j i chunk
      = chunk.set j (streamAt msg msg_len tot_len L i) := by
  unfold fillByte streamAt
  split_ifs <;> first | rfl | omega

/-- The inner loop from position `j` and index `i`: the positions `j .. j + n - 1` receive
the stream bytes `i .. i + n - 1`, the others keep their contents. -/
theorem fillChunk_spec (msg : List Nat) (msg_len tot_len : Int) (L : Nat) :
    ∀ (n j : Nat) (i : Int) (chunk : List Nat), j + n ≤ chunk.length → i + n ≤ tot_len →
      (fillChunk msg msg_len tot_len L n j i chunk).2 = i + n ∧
      (fillChunk msg msg_len tot_len L n j i chunk).1.length = chunk.length ∧
      ∀ q, (fillChunk msg msg_len tot_len L n j i chunk).1.getD q 0
        = if j ≤ q ∧ q < j + n then streamAt msg msg_len tot_len L (i + ((q - j : Nat) : Int))
          else chunk.getD q 0 := by
  intro n
  induction n with
  | zero =>
    intro j i chunk _ _
    refine ⟨by simp [fillChunk], by simp [fillChunk], ?_⟩
    intro q
    have c : ¬ (j ≤ q ∧ q < j + 0) := by omega
    rw [if_neg c]
    rfl
  | succ n ih =>
    intro j i chunk hj hi
    have hi0 : i < tot_len := by omega
    have hstep : fillChunk msg msg_len tot_len L (n + 1) j i chunk
        = fillChunk msg msg_len tot_len L n (j + 1) (i + 1)
            (chunk.set j (streamAt msg msg_len tot_len L i)) := by
      simp [fillChunk, fillByte_eq_set msg msg_len tot_len L j i chunk hi0]
    obtain ⟨h1, h2, h3⟩ := ih (j + 1) (i + 1) (chunk.set j (streamAt msg msg_len tot_len L i))
      (by simp; omega) (by push_cast at hi ⊢; omega)
    rw [hstep]
    refine ⟨by rw [h1]; push_cast; ring, by rw [h2]; simp, ?_⟩
    intro q
    rw [h3 q]
    by_cases hq : q = j
    · subst hq
      have c1 : ¬ (q + 1 ≤ q ∧ q < q + 1 + n) := by omega
      have c2 : q ≤ q ∧ q < q + (n + 1) := by omega
      rw [if_neg c1, if_pos c2, getD_set_eq _ _ _ (by omega)]
      simp
    · by_cases hin : j + 1 ≤ q ∧ q < j + 1 + n
      · have c2 : j ≤ q ∧ q < j + (n + 1) := by omega
        rw [if_pos hin, if_pos c2]
        congr 1
        have : ((q - (j + 1) : Nat) : Int) + 1 = ((q - j : Nat) : Int) := by omega
        omega
      · have c2 : ¬ (j ≤ q ∧ q < j + (n + 1)) := by omega
        rw [if_neg hin, if_neg c2, getD_set_ne _ _ _ _ (by omega)]

/-- A full pass of the inner loop overwrites the whole buffer with the next 64 stream
bytes, whatever the buffer held before. -/
theorem fillChunk_full (msg : List Nat) (msg_len tot_len : Int) (L : Nat) (i : Int)
    (chunk : List Nat) (hc : chunk.length = 64) (hi : i + 64 ≤ tot_len) :
    fillChunk msg msg_len tot_len L 64 0 i chunk
      = (streamBlock msg msg_len tot_len L i, i + 64) := by
  obtain ⟨h1, h2, h3⟩ := fillChunk_spec msg msg_len tot_len L 64 0 i chunk (by omega)
    (by push_cast; omega)
  refine Prod.ext ?_ (by simpa using h1)
  apply ext_getD
  · simp [h2, hc, streamBlock]
  · intro q hq
    rw [h2, hc] at hq
    have c : 0 ≤ q ∧ q < 0 + 64 := by omega
    rw [h3 q, if_pos c]
    simp [streamBlock, List.getElem?_map, List.getElem?_range hq]

/-! ### The block loop -/

/-- The block loop with `m` blocks to go performs `call` on each of them in order, for any
action `call`, when the fuel exceeds `m`. -/
theorem blockLoop_eq {σ : Type} (call : σ → List Nat → σ) (msg : List Nat)
    (msg_len tot_len : Int) (L : Nat) :
    ∀ (m fuel : Nat) (i : Int) (chunk : List Nat) (st : σ), chunk.length = 64 →
      tot_len = i + 64 * (m : Int) → m < fuel →
      blockLoop call msg msg_len tot_len L fuel i chunk st
        = some ((streamBlocks msg msg_len tot_len L i m).foldl call st) := by
  intro m
  induction m with
  | zero =>
    intro fuel i chunk st _ ht hf
    obtain ⟨f, rfl⟩ : ∃ f, fuel = f + 1 := ⟨fuel - 1, by omega⟩
    have hge : ¬ i < tot_len := by omega
    simp [blockLoop, hge, streamBlocks]
  | succ m ih =>
    intro fuel i chunk st hc ht hf
    obtain ⟨f, rfl⟩ : ∃ f, fuel = f + 1 := ⟨fuel - 1, by omega⟩
    have hlt : i < tot_len := by push_cast at ht; omega
    have hfull := fillChunk_full msg msg_len tot_len L i chunk hc (by push_cast at ht; omega)
    have hrec := ih f (i + 64) (streamBlock msg msg_len tot_len L i)
      (call st (streamBlock msg msg_len tot_len L i)) (by simp [streamBlock])
      (by push_cast at ht; omega) (by omega)
    simp only [blockLoop, if_pos hlt, hfull, hrec, streamBlocks, List.foldl_cons]

/-- The block loop does nothing when `tot_len` is not above the index. -/
theorem blockLoop_exit {σ : Type} (call : σ → List Nat → σ) (msg : List Nat)
    (msg_len tot_len : Int) (L : Nat) (fuel : Nat) (i : Int) (chunk : List Nat) (st : σ)
    (h : tot_len ≤ i) :
    blockLoop call msg msg_len tot_len L (fuel + 1) i chunk st = some st := by
  have hge : ¬ i < tot_len := by omega
  simp [blockLoop, hge]

/-- For a non-negative length whose padded stream fits an `int`, `tot_len` is
`64 * numBlocks`. -/
theorem totLen_eq_blocks (L : Int) (hL : 0 ≤ L) (hmax : L + 68 ≤ INT_MAX) :
    totLen L = some (64 * (numBlocks L : Int)) := by
  rw [totLen_eq, intSum_eq_self _ (by omega)]
  have h : ((numBlocks L : Nat) : Int) = (L + 68) / 64 := Int.toNat_of_nonneg (by omega)
  rw [h]
  congr 1
  omega

/-- The block loop with the fuel `sha256` gives it, for a `tot_len` that is a multiple
of 64: it performs `call` on the `tot_len / 64` blocks of the stream, and on none when
`tot_len` is not positive. -/
theorem blockLoop_run {σ : Type} (call : σ → List Nat → σ) (msg : List Nat)
    (msg_len tot_len : Int) (L : Nat) (chunk : List Nat) (st : σ) (hc : chunk.length = 64)
    (ht : tot_len % 64 = 0) :
    blockLoop call msg msg_len tot_len L (tot_len.toNat + 1) 0 chunk st
      = some ((streamBlocks msg msg_len tot_len L 0 (tot_len / 64).toNat).foldl call st) := by
  by_cases hpos : tot_len ≤ 0
  · have hz : (tot_len / 64).toNat = 0 := by omega
    rw [hz, blockLoop_exit _ _ _ _ _ _ _ _ _ hpos]
    rfl
  · have hm : (((tot_len / 64).toNat : Nat) : Int) = tot_len / 64 :=
      Int.toNat_of_nonneg (by omega)
    exact blockLoop_eq call msg msg_len tot_len L (tot_len / 64).toNat _ 0 chunk st hc
      (by omega) (by omega)

/-- Recording the blocks in call order gives the list of blocks. -/
theorem foldl_record (B acc : List (List Nat)) :
    B.foldl (fun acc chunk => acc ++ [chunk]) acc = acc ++ B := by
  induction B generalizing acc with
  | nil => simp
  | cons b B ih => simp [ih]

/-- The state after the block loop and the buffers passed to `sha256_chunk`, for every
`msg_len`. -/
theorem run_eq (msg : List Nat) (L : Int) :
    ∃ t, totLen L = some t ∧ t % 64 = 0 ∧
      finalHash msg L = some ((streamBlocks msg L t (bitLen L) 0 (t / 64).toNat).foldl
        sha256_chunk seed) ∧
      fedBlocks msg L = some (streamBlocks msg L t (bitLen L) 0 (t / 64).toNat) := by
  obtain ⟨t, ht, hmod⟩ := totLen_emod L
  refine ⟨t, ht, hmod, ?_, ?_⟩
  · simp only [finalHash, ht]
    exact blockLoop_run sha256_chunk msg L t _ _ seed (by simp) hmod
  · simp only [fedBlocks, ht]
    rw [blockLoop_run _ msg L t _ _ [] (by simp) hmod]
    simp [foldl_record]

/-- The state after the block loop, for a non-negative length that fits. -/
theorem finalHash_eq (msg : List Nat) (L : Int) (hL : 0 ≤ L) (hmax : L + 68 ≤ INT_MAX) :
    finalHash msg L = some ((streamBlocks msg L (64 * (numBlocks L : Int)) (bitLen L) 0
      (numBlocks L)).foldl sha256_chunk seed) := by
  simp only [finalHash, totLen_eq_blocks L hL hmax]
  exact blockLoop_eq sha256_chunk msg L _ _ (numBlocks L) _ 0 _ seed (by simp) (by omega)
    (by omega)

/-- The buffers passed to `sha256_chunk`, for a non-negative length that fits. -/
theorem fedBlocks_eq (msg : List Nat) (L : Int) (hL : 0 ≤ L) (hmax : L + 68 ≤ INT_MAX) :
    fedBlocks msg L = some (streamBlocks msg L (64 * (numBlocks L : Int)) (bitLen L) 0
      (numBlocks L)) := by
  simp only [fedBlocks, totLen_eq_blocks L hL hmax]
  rw [blockLoop_eq _ msg L _ _ (numBlocks L) _ 0 _ [] (by simp) (by omega) (by omega)]
  simp [foldl_record]

/-- Function `sha256` writes the serialised final state. -/
theorem sha256_eq_finalHash (msg : List Nat) (L : Int) :
    sha256 msg L = (finalHash msg L).map fun hash => writeDigest hash 8 0 (List.replicate 32 0) := by
  unfold sha256 finalHash
  cases totLen L with
  | none => rfl
  | some t =>
    simp only
    cases blockLoop sha256_chunk msg L t (bitLen L) (t.toNat + 1) 0 (List.replicate 64 0) seed with
    | none => rfl
    | some h => rfl

/-! ### The stream byte by byte -/

/-- The blocks from index `i` on have 64 bytes each. -/
theorem length_flatten_streamBlocks (msg : List Nat) (msg_len tot_len : Int) (L : Nat) :
    ∀ (m : Nat) (i : Int), (streamBlocks msg msg_len tot_len L i m).flatten.length = 64 * m := by
  intro m
  induction m with
  | zero => intro i; simp [streamBlocks]
  | succ m ih =>
    intro i
    simp [streamBlocks, ih, streamBlock]
    omega

/-- Byte `q` of the concatenated blocks from index `i` on is stream byte `i + q`. -/
theorem getD_flatten_streamBlocks (msg : List Nat) (msg_len tot_len : Int) (L : Nat) :
    ∀ (m : Nat) (i : Int) (q : Nat), q < 64 * m →
      (streamBlocks msg msg_len tot_len L i m).flatten.getD q 0
        = streamAt msg msg_len tot_len L (i + (q : Int)) := by
  intro m
  induction m with
  | zero => intro i q hq; omega
  | succ m ih =>
    intro i q hq
    have hlen : (streamBlock msg msg_len tot_len L i).length = 64 := by simp [streamBlock]
    rw [streamBlocks, List.flatten_cons]
    by_cases h : q < 64
    · rw [List.getD_append _ _ _ _ (by omega)]
      simp [streamBlock, List.getElem?_map, List.getElem?_range h]
    · rw [List.getD_append_right _ _ _ _ (by omega), hlen, ih (i + 64) (q - 64) (by omega)]
      congr 1
      omega

/-! ### The stream in one piece -/

/-- The low 32 bits of `L` are those of the exact bit length: neither the wrap-around of
the `int` product nor the conversion to `uint64_t` touches them. -/
theorem bitLen_mod (n : Nat) : bitLen (n : Int) % 2 ^ 32 = (8 * n) % 2 ^ 32 := by
  unfold bitLen wrapInt
  omega

/-- The product `msg_len * 8` does not wrap below `2 ^ 28` bytes. -/
theorem bitLen_small (n : Nat) (h : n < 2 ^ 28) : bitLen (n : Int) = 8 * n := by
  unfold bitLen wrapInt
  omega

/-- A byte taken at a shift of at most 24 depends on the low 32 bits only. -/
theorem toByte_shiftRight_mod (y s : Nat) (hs : s ≤ 24) :
    toByte ((y % 2 ^ 32) >>> s) = toByte (y >>> s) := by
  unfold toByte
  rw [Nat.shiftRight_eq_div_pow, Nat.shiftRight_eq_div_pow]
  have h32 : (2 : Nat) ^ 32 = 2 ^ s * 2 ^ (32 - s) := by
    rw [← Nat.pow_add]; congr 1; omega
  rw [h32, Nat.mod_mul_right_div_self]
  have h8 : (2 : Nat) ^ (32 - s) = 2 ^ 8 * 2 ^ (24 - s) := by
    rw [← Nat.pow_add]; congr 1; omega
  rw [h8, Nat.mod_mul_right_mod]

/-- The byte at shift `s` of the trailer is that of the exact bit length. -/
theorem toByte_bitLen (n s : Nat) (hs : s ≤ 24) :
    toByte (bitLen (n : Int) >>> s) = toByte ((8 * n) >>> s) := by
  rw [← toByte_shiftRight_mod (bitLen (n : Int)) s hs, bitLen_mod,
    toByte_shiftRight_mod _ s hs]

/-- The four trailer bytes. -/
theorem bigEndian_four (x : Nat) :
    bigEndian 4 x = [toByte (x >>> 24), toByte (x >>> 16), toByte (x >>> 8), toByte (x >>> 0)] := by
  rfl

/-- The length of the stream in closed form. -/
theorem length_codeStream (msg : List Nat) :
    (codeStream msg).length = 64 * numBlocks (msg.length : Int) := by
  have hp : (((-((msg.length : Int) + 5)) % 64).toNat : Int) = (-((msg.length : Int) + 5)) % 64 :=
    Int.toNat_of_nonneg (by omega)
  have hm : ((numBlocks (msg.length : Int) : Nat) : Int) = ((msg.length : Int) + 68) / 64 :=
    Int.toNat_of_nonneg (by omega)
  simp only [codeStream, List.length_append, List.length_replicate, bigEndian_four,
    List.length_cons, List.length_nil]
  omega

/-- Byte `q` of the stream in closed form is the byte the chain stores for
stream index `q`. -/
theorem getD_codeStream (msg : List Nat) (q : Nat)
    (hq : q < 64 * numBlocks (msg.length : Int)) :
    (codeStream msg).getD q 0
      = streamAt msg (msg.length : Int) (64 * (numBlocks (msg.length : Int) : Int))
          (bitLen (msg.length : Int)) (q : Int) := by
  have hp : (((-((msg.length : Int) + 5)) % 64).toNat : Int) = (-((msg.length : Int) + 5)) % 64 :=
    Int.toNat_of_nonneg (by omega)
  have hm : ((numBlocks (msg.length : Int) : Nat) : Int) = ((msg.length : Int) + 68) / 64 :=
    Int.toNat_of_nonneg (by omega)
  generalize hpd : ((-((msg.length : Int) + 5)) % 64).toNat = p at hp
  generalize hmd : numBlocks (msg.length : Int) = m at hm hq
  have htot : 64 * m = msg.length + 1 + p + 4 := by omega
  unfold codeStream streamAt
  rw [hpd]
  have l1 : (msg ++ [0x80]).length = msg.length + 1 := by simp
  have l2 : (msg ++ [0x80] ++ List.replicate p 0).length = msg.length + 1 + p := by
    simp only [List.length_append, List.length_replicate, List.length_cons, List.length_nil]
  by_cases h1 : q < msg.length
  · rw [List.getD_append _ _ _ _ (by omega), List.getD_append _ _ _ _ (by omega),
      List.getD_append _ _ _ _ h1, if_pos (by omega)]
    simp
  · by_cases h2 : q = msg.length
    · rw [List.getD_append _ _ _ _ (by omega), List.getD_append _ _ _ _ (by omega),
        List.getD_append_right _ _ _ _ (by omega), if_neg (by omega), if_pos (by omega)]
      simp [h2]
    · by_cases h3 : q < msg.length + 1 + p
      · rw [List.getD_append _ _ _ _ (by omega), List.getD_append_right _ _ _ _ (by omega),
          if_neg (by omega), if_neg (by omega), if_pos (by omega)]
        simp
      · rw [List.getD_append_right _ _ _ _ (by omega), l2, bigEndian_four,
          if_neg (by omega), if_neg (by omega), if_neg (by omega)]
        rw [toByte_bitLen _ _ (by omega), toByte_bitLen _ _ (by omega),
          toByte_bitLen _ _ (by omega), toByte_bitLen _ _ (by omega)]
        obtain h | h | h | h : q - (msg.length + 1 + p) = 0 ∨ q - (msg.length + 1 + p) = 1 ∨
            q - (msg.length + 1 + p) = 2 ∨ q - (msg.length + 1 + p) = 3 := by omega
        · rw [h, if_pos (by omega)]; rfl
        · rw [h, if_neg (by omega), if_pos (by omega)]; rfl
        · rw [h, if_neg (by omega), if_neg (by omega), if_pos (by omega)]; rfl
        · rw [h, if_neg (by omega), if_neg (by omega), if_neg (by omega), if_pos (by omega)]; rfl

/-- The concatenation of the blocks `sha256` passes to `sha256_chunk` is the stream in
closed form. -/
theorem flatten_streamBlocks_eq (msg : List Nat) :
    (streamBlocks msg (msg.length : Int) (64 * (numBlocks (msg.length : Int) : Int))
      (bitLen (msg.length : Int)) 0 (numBlocks (msg.length : Int))).flatten
      = codeStream msg := by
  apply ext_getD
  · rw [length_flatten_streamBlocks, length_codeStream]
  · intro q hq
    rw [length_flatten_streamBlocks] at hq
    rw [getD_flatten_streamBlocks _ _ _ _ _ _ _ hq, getD_codeStream msg q hq]
    simp

/-- The stream `sha256` feeds to `sha256_chunk`, for a message that fits. -/
theorem fedStream_eq (msg : List Nat) (hmax : (msg.length : Int) + 68 ≤ INT_MAX) :
    fedStream msg (msg.length : Int) = some (codeStream msg) := by
  rw [fedStream, fedBlocks_eq msg _ (by omega) hmax]
  simp [flatten_streamBlocks_eq]

/-! ### Digest assembly -/

/-- The digest loop writes the four bytes of each of the eight words, most significant
first. -/
theorem writeDigest_eq (hash : List Nat) :
    writeDigest hash 8 0 (List.replicate 32 0) =
      [toByte (hash.getD 0 0 >>> 24), toByte (hash.getD 0 0 >>> 16),
       toByte (hash.getD 0 0 >>> 8), toByte (hash.getD 0 0 >>> 0),
       toByte (hash.getD 1 0 >>> 24), toByte (hash.getD 1 0 >>> 16),
       toByte (hash.getD 1 0 >>> 8), toByte (hash.getD 1 0 >>> 0),
       toByte (hash.getD 2 0 >>> 24), toByte (hash.getD 2 0 >>> 16),
       toByte (hash.getD 2 0 >>> 8), toByte (hash.getD 2 0 >>> 0),
       toByte (hash.getD 3 0 >>> 24), toByte (hash.getD 3 0 >>> 16),
       toByte (hash.getD 3 0 >>> 8), toByte (hash.getD 3 0 >>> 0),
       toByte (hash.getD 4 0 >>> 24), toByte (hash.getD 4 0 >>> 16),
       toByte (hash.getD 4 0 >>> 8), toByte (hash.getD 4 0 >>> 0),
       toByte (hash.getD 5 0 >>> 24), toByte (hash.getD 5 0 >>> 16),
       toByte (hash.getD 5 0 >>> 8), toByte (hash.getD 5 0 >>> 0),
       toByte (hash.getD 6 0 >>> 24), toByte (hash.getD 6 0 >>> 16),
       toByte (hash.getD 6 0 >>> 8), toByte (hash.getD 6 0 >>> 0),
       toByte (hash.getD 7 0 >>> 24), toByte (hash.getD 7 0 >>> 16),
       toByte (hash.getD 7 0 >>> 8), toByte (hash.getD 7 0 >>> 0)] := by
  simp [writeDigest, List.replicate]

/-- A list of eight entries, spelled out. -/
theorem eq_of_length_eight (l : List Nat) (h : l.length = 8) :
    l = [l.getD 0 0, l.getD 1 0, l.getD 2 0, l.getD 3 0, l.getD 4 0, l.getD 5 0, l.getD 6 0,
      l.getD 7 0] := by
  match l, h with
  | [_, _, _, _, _, _, _, _], _ => rfl

/-- On a list of eight words the digest loop is the big-endian serialisation. -/
theorem writeDigest_eq_serialise (hash : List Nat) (h : hash.length = 8) :
    writeDigest hash 8 0 (List.replicate 32 0) = serialise hash := by
  rw [writeDigest_eq]
  conv_rhs => rw [eq_of_length_eight hash h]
  rfl

/-- A word is recovered from its four big-endian bytes. -/
theorem word_of_bytes (x : Nat) (hx : x < 2 ^ 32) :
    toByte (x >>> 24) * 2 ^ 24 + toByte (x >>> 16) * 2 ^ 16 + toByte (x >>> 8) * 2 ^ 8
      + toByte (x >>> 0) = x := by
  simp only [toByte, Nat.shiftRight_eq_div_pow]
  norm_num at hx ⊢
  omega

/-- Reading the serialisation of eight words back as big-endian words. -/
theorem blockWords_serialise_eight (a b c d e f g h : Nat) (ha : a < 2 ^ 32) (hb : b < 2 ^ 32)
    (hc : c < 2 ^ 32) (hd : d < 2 ^ 32) (he : e < 2 ^ 32) (hf : f < 2 ^ 32) (hg : g < 2 ^ 32)
    (hh : h < 2 ^ 32) :
    FIPS.blockWords 8 (serialise [a, b, c, d, e, f, g, h]) = [a, b, c, d, e, f, g, h] := by
  have e1 : FIPS.blockWords 8 (serialise [a, b, c, d, e, f, g, h]) =
      [toByte (a >>> 24) * 2 ^ 24 + toByte (a >>> 16) * 2 ^ 16 + toByte (a >>> 8) * 2 ^ 8
        + toByte (a >>> 0),
       toByte (b >>> 24) * 2 ^ 24 + toByte (b >>> 16) * 2 ^ 16 + toByte (b >>> 8) * 2 ^ 8
        + toByte (b >>> 0),
       toByte (c >>> 24) * 2 ^ 24 + toByte (c >>> 16) * 2 ^ 16 + toByte (c >>> 8) * 2 ^ 8
        + toByte (c >>> 0),
       toByte (d >>> 24) * 2 ^ 24 + toByte (d >>> 16) * 2 ^ 16 + toByte (d >>> 8) * 2 ^ 8
        + toByte (d >>> 0),
       toByte (e >>> 24) * 2 ^ 24 + toByte (e >>> 16) * 2 ^ 16 + toByte (e >>> 8) * 2 ^ 8
        + toByte (e >>> 0),
       toByte (f >>> 24) * 2 ^ 24 + toByte (f >>> 16) * 2 ^ 16 + toByte (f >>> 8) * 2 ^ 8
        + toByte (f >>> 0),
       toByte (g >>> 24) * 2 ^ 24 + toByte (g >>> 16) * 2 ^ 16 + toByte (g >>> 8) * 2 ^ 8
        + toByte (g >>> 0),
       toByte (h >>> 24) * 2 ^ 24 + toByte (h >>> 16) * 2 ^ 16 + toByte (h >>> 8) * 2 ^ 8
        + toByte (h >>> 0)] := rfl
  rw [e1, word_of_bytes _ ha, word_of_bytes _ hb, word_of_bytes _ hc, word_of_bytes _ hd,
    word_of_bytes _ he, word_of_bytes _ hf, word_of_bytes _ hg, word_of_bytes _ hh]

/-- Reading a serialised state back as big-endian words returns the state. -/
theorem blockWords_serialise (hash : List Nat) (h : IsState hash) :
    FIPS.blockWords 8 (serialise hash) = hash := by
  obtain ⟨hl, hw⟩ := h
  match hash, hl, hw with
  | [a, b, c, d, e, f, g, h], _, hw =>
    exact blockWords_serialise_eight a b c d e f g h (hw a (by simp)) (hw b (by simp))
      (hw c (by simp)) (hw d (by simp)) (hw e (by simp)) (hw f (by simp)) (hw g (by simp))
      (hw h (by simp))

/-- The output of `sha256_chunk` is a state. -/
theorem isState_sha256_chunk (hash chunk : List Nat) : IsState (sha256_chunk hash chunk) := by
  refine ⟨rfl, ?_⟩
  intro x hx
  simp only [sha256_chunk, List.mem_cons, List.mem_singleton, List.not_mem_nil, or_false] at hx
  have hlt : ∀ y : Nat, toWord y < 2 ^ 32 := fun y => Nat.mod_lt _ (by norm_num)
  rcases hx with h | h | h | h | h | h | h | h <;> rw [h] <;> exact hlt _

/-- The seed is a state. -/
theorem isState_seed : IsState seed := by
  refine ⟨rfl, ?_⟩
  decide

/-- Folding `sha256_chunk` over blocks keeps a state. -/
theorem isState_foldl (B : List (List Nat)) (hash : List Nat) (h : IsState hash) :
    IsState (B.foldl sha256_chunk hash) := by
  induction B generalizing hash with
  | nil => exact h
  | cons b B ih => exact ih _ (isState_sha256_chunk hash b)

/-- Cutting the concatenated blocks into 64-byte blocks gives the blocks back. -/
theorem blocks_flatten_streamBlocks (msg : List Nat) (msg_len tot_len : Int) (L : Nat) :
    ∀ (m : Nat) (i : Int),
      FIPS.blocks m (streamBlocks msg msg_len tot_len L i m).flatten
        = streamBlocks msg msg_len tot_len L i m := by
  intro m
  induction m with
  | zero => intro i; rfl
  | succ m ih =>
    intro i
    have hlen : (streamBlock msg msg_len tot_len L i).length = 64 := by simp [streamBlock]
    rw [streamBlocks, List.flatten_cons, FIPS.blocks, List.take_left' hlen,
      List.drop_left' hlen, ih]

/-- The 64-byte blocks of the stream in closed form are the buffers passed to
`sha256_chunk`. -/
theorem blocks_codeStream (msg : List Nat) :
    FIPS.blocks ((codeStream msg).length / 64) (codeStream msg)
      = streamBlocks msg (msg.length : Int) (64 * (numBlocks (msg.length : Int) : Int))
          (bitLen (msg.length : Int)) 0 (numBlocks (msg.length : Int)) := by
  have hl : (codeStream msg).length / 64 = numBlocks (msg.length : Int) := by
    rw [length_codeStream]; omega
  rw [hl, ← flatten_streamBlocks_eq msg, blocks_flatten_streamBlocks]

/-- The digest of a message that fits: the fold of `sha256_chunk` over the blocks of the
stream in closed form, serialised. -/
theorem sha256_eq_fold (msg : List Nat) (hmax : (msg.length : Int) + 68 ≤ INT_MAX) :
    sha256 msg (msg.length : Int) = some (serialise
      ((FIPS.blocks ((codeStream msg).length / 64) (codeStream msg)).foldl
        sha256_chunk seed)) := by
  rw [sha256_eq_finalHash, finalHash_eq msg _ (by omega) hmax, blocks_codeStream]
  simp only [Option.map_some']
  rw [writeDigest_eq_serialise _ (isState_foldl _ _ isState_seed).1]

/-- The stream in closed form splits into the message and the framing. -/
theorem codeStream_eq_append (msg : List Nat) :
    codeStream msg = msg ++ (0x80 :: (List.replicate
      ((-((msg.length : Int) + 5)) % 64).toNat 0 ++ bigEndian 4 (8 * msg.length))) := by
  simp [codeStream]

/-! ### Trip counts -/

/-- The guarded loop from counter `i` makes `64 - i` passes and computes what the
counted loop computes. -/
theorem extendWhile_eq : ∀ (n fuel i : Nat) (w : List Nat) (steps : Nat), i + n = 64 → n < fuel →
    extendWhile fuel i w steps = some (extendWords n i w, steps + n) := by
  intro n
  induction n with
  | zero =>
    intro fuel i w steps hi hf
    obtain ⟨f, rfl⟩ : ∃ f, fuel = f + 1 := ⟨fuel - 1, by omega⟩
    have hge : ¬ i < 64 := by omega
    simp [extendWhile, hge, extendWords]
  | succ n ih =>
    intro fuel i w steps hi hf
    obtain ⟨f, rfl⟩ : ∃ f, fuel = f + 1 := ⟨fuel - 1, by omega⟩
    have hlt : i < 64 := by omega
    simp only [extendWhile, if_pos hlt, extendWords]
    rw [ih f (i + 1) _ (steps + 1) (by omega) (by omega)]
    congr 2
    omega

/-- The guarded round loop from counter `i` makes `64 - i` passes and computes what the
counted loop computes. -/
theorem roundsWhile_eq (w : List Nat) : ∀ (n fuel i : Nat) (v : Vars) (steps : Nat),
    i + n = 64 → n < fuel →
    roundsWhile w fuel i v steps = some (rounds w n i v, steps + n) := by
  intro n
  induction n with
  | zero =>
    intro fuel i v steps hi hf
    obtain ⟨f, rfl⟩ : ∃ f, fuel = f + 1 := ⟨fuel - 1, by omega⟩
    have hge : ¬ i < 64 := by omega
    simp [roundsWhile, hge, rounds]
  | succ n ih =>
    intro fuel i v steps hi hf
    obtain ⟨f, rfl⟩ : ∃ f, fuel = f + 1 := ⟨fuel - 1, by omega⟩
    have hlt : i < 64 := by omega
    simp only [roundsWhile, if_pos hlt, rounds]
    rw [ih f (i + 1) _ (steps + 1) (by omega) (by omega)]
    congr 2
    omega

/-- The number of recorded blocks. -/
theorem length_streamBlocks (msg : List Nat) (msg_len tot_len : Int) (L : Nat) :
    ∀ (m : Nat) (i : Int), (streamBlocks msg msg_len tot_len L i m).length = m := by
  intro m
  induction m with
  | zero => intro i; rfl
  | succ m ih => intro i; simp [streamBlocks, ih]

/-- For every length `sha256` returns a digest with the fuel it gives its loops. -/
theorem sha256_defined (msg : List Nat) (L : Int) : ∃ d, sha256 msg L = some d := by
  obtain ⟨t, -, -, hf, -⟩ := run_eq msg L
  rw [sha256_eq_finalHash, hf]
  exact ⟨_, rfl⟩

/-- The guarded loops of `sha256_chunk` end within any fuel above 64, after 48 and 64
passes, and leave the state `sha256_chunk` returns. -/
theorem sha256_chunk_counted_eq (fuel : Nat) (hash chunk : List Nat) (hf : 64 < fuel) :
    sha256_chunk_counted fuel hash chunk = some (sha256_chunk hash chunk, 48, 64) := by
  unfold sha256_chunk_counted
  rw [extendWhile_eq 48 fuel 16 _ 0 rfl (by omega)]
  simp only
  rw [roundsWhile_eq _ 64 fuel 0 _ 0 rfl (by omega)]
  rfl

/-- A length below `2 ^ 29` leaves the sum `msg_len + 1 + pad_len + 4` in range. -/
theorem fits_of_lt (n : Nat) (h : n < 2 ^ 29) : (n : Int) + 68 ≤ INT_MAX := by
  unfold INT_MAX
  omega

/-- Folding the counted call over blocks: the state is that of folding `sha256_chunk`, and
the log grows by one entry `(48, 64)` per block. -/
theorem foldl_callCounted (fuel : Nat) (hf : 64 < fuel) : ∀ (B : List (List Nat))
    (hash : List Nat) (log : List (Nat × Nat)),
    B.foldl (callCounted fuel) (some (hash, log))
      = some (B.foldl sha256_chunk hash, log ++ List.replicate B.length (48, 64)) := by
  intro B
  induction B with
  | nil => intro hash log; simp
  | cons b B ih =>
    intro hash log
    have h1 : callCounted fuel (some (hash, log)) b
        = some (sha256_chunk hash b, log ++ [(48, 64)]) := by
      simp only [callCounted, sha256_chunk_counted_eq fuel hash b hf]
    rw [List.foldl_cons, h1, ih, List.foldl_cons, List.length_cons, List.replicate_succ,
      List.append_assoc]
    rfl

/-- The counted run, for every `msg_len`: the state `sha256` reaches, and one log entry
`(48, 64)` for each of the `tot_len / 64` blocks. -/
theorem sha256_counted_eq (fuel : Nat) (hf : 64 < fuel) (msg : List Nat) (L : Int) :
    ∃ t hash, totLen L = some t ∧ finalHash msg L = some hash ∧
      sha256_counted fuel msg L = some (hash, List.replicate (t / 64).toNat (48, 64)) := by
  obtain ⟨t, ht, hmod, hfin, -⟩ := run_eq msg L
  refine ⟨t, _, ht, hfin, ?_⟩
  simp only [sha256_counted, ht]
  rw [blockLoop_run (callCounted fuel) msg L t _ _ _ (by simp) hmod,
    foldl_callCounted fuel hf, length_streamBlocks]
  rfl

/-! ### The trailer, the reads of `msg`, and negative lengths -/

/-- The last four bytes of the stream in closed form. -/
theorem lastBytes_codeStream (msg : List Nat) :
    lastBytes 4 (codeStream msg) = bigEndian 4 (8 * msg.length) := by
  unfold lastBytes codeStream
  have hl : (bigEndian 4 (8 * msg.length)).length = 4 := rfl
  rw [List.length_append, hl, Nat.add_sub_cancel, List.drop_left]

/-- Block `k` of the recorded blocks. -/
theorem getD_streamBlocks (msg : List Nat) (msg_len tot_len : Int) (L : Nat) :
    ∀ (m : Nat) (i : Int) (k : Nat), k < m →
      (streamBlocks msg msg_len tot_len L i m).getD k []
        = streamBlock msg msg_len tot_len L (i + 64 * (k : Int)) := by
  intro m
  induction m with
  | zero => intro i k hk; omega
  | succ m ih =>
    intro i k hk
    cases k with
    | zero => simp [streamBlocks]
    | succ k =>
      rw [streamBlocks, List.getD_cons_succ, ih (i + 64) k (by omega)]
      congr 1
      push_cast
      ring

/-- The stream bytes depend on `msg` only through its entries below `msg_len`. -/
theorem streamAt_congr (msg msg' : List Nat) (msg_len tot_len : Int) (L : Nat)
    (h : ∀ q : Nat, (q : Int) < msg_len → msg'.getD q 0 = msg.getD q 0) (i : Int) (hi : 0 ≤ i) :
    streamAt msg' msg_len tot_len L i = streamAt msg msg_len tot_len L i := by
  unfold streamAt
  by_cases h1 : i < msg_len
  · rw [if_pos h1, if_pos h1]
    exact h i.toNat (by rw [Int.toNat_of_nonneg hi]; exact h1)
  · rw [if_neg h1, if_neg h1]

/-- The blocks depend on `msg` only through its entries below `msg_len`. -/
theorem streamBlocks_congr (msg msg' : List Nat) (msg_len tot_len : Int) (L : Nat)
    (h : ∀ q : Nat, (q : Int) < msg_len → msg'.getD q 0 = msg.getD q 0) :
    ∀ (m : Nat) (i : Int), 0 ≤ i →
      streamBlocks msg' msg_len tot_len L i m = streamBlocks msg msg_len tot_len L i m := by
  intro m
  induction m with
  | zero => intro i _; rfl
  | succ m ih =>
    intro i hi
    rw [streamBlocks, streamBlocks, ih (i + 64) (by omega)]
    congr 1
    unfold streamBlock
    apply List.map_congr_left
    intro k _
    exact streamAt_congr msg msg' msg_len tot_len L h _ (by omega)

/-- The serialised seed. -/
theorem writeDigest_seed :
    writeDigest seed 8 0 (List.replicate 32 0) =
      [0x6a, 0x09, 0xe6, 0x67, 0xbb, 0x67, 0xae, 0x85, 0x3c, 0x6e, 0xf3, 0x72, 0xa5, 0x4f, 0xf5,
       0x3a, 0x51, 0x0e, 0x52, 0x7f, 0x9b, 0x05, 0x68, 0x8c, 0x1f, 0x83, 0xd9, 0xab, 0x5b, 0xe0,
       0xcd, 0x19] := by
  decide!

/-! ### Rotation, complement and word assembly -/

/-- The shift count of the macro: `-n & 31` is `32 - n` for `0 < n < 32`. -/
theorem negAnd31_eq (n : Nat) (h0 : 0 < n) (h : n < 32) : negAnd31 n = 32 - n := by
  unfold negAnd31
  omega

/-- The macro `ROTR` is the rotation of the standard for every count `0 < n < 32`. -/
theorem ROTR_eq_rotr (x n : Nat) (h0 : 0 < n) (h : n < 32) : ROTR x n = FIPS.rotr n x := by
  unfold ROTR FIPS.rotr toWord
  rw [negAnd31_eq n h0 h]

/-- Bits at or above position 32 of a word are clear. -/
theorem testBit_word_high (x j : Nat) (hx : x < 2 ^ 32) (hj : 32 ≤ j) : x.testBit j = false :=
  Nat.testBit_lt_two_pow (Nat.lt_of_lt_of_le hx (Nat.pow_le_pow_right (by norm_num) hj))

/-- The rotation is a true rotation of the 32 bits: bit `j` of the result is bit
`(j + n) mod 32` of the argument. -/
theorem rotr_testBit (x n j : Nat) (hx : x < 2 ^ 32) (h0 : 0 < n) (h : n < 32) (hj : j < 32) :
    (FIPS.rotr n x).testBit j = x.testBit ((j + n) % 32) := by
  unfold FIPS.rotr
  rw [Nat.testBit_or, Nat.testBit_shiftRight, Nat.testBit_mod_two_pow, Nat.testBit_shiftLeft]
  by_cases hc : j + n < 32
  · have e1 : (j + n) % 32 = n + j := by omega
    have e2 : ¬ (j ≥ 32 - n) := by omega
    simp [e1, e2]
  · have e1 : (j + n) % 32 = j - (32 - n) := by omega
    have e2 : j ≥ 32 - n := by omega
    rw [testBit_word_high x (n + j) hx (by omega), e1]
    simp [e2, hj]

/-- The complement of a word is `2 ^ 32 - 1` minus the word. -/
theorem notWord_eq (x : Nat) (hx : x < 2 ^ 32) : notWord x = 2 ^ 32 - 1 - x := by
  apply Nat.eq_of_testBit_eq
  intro i
  have e : 2 ^ 32 - 1 - x = 2 ^ 32 - (x + 1) := by omega
  have e2 : (0xffffffff : Nat) = 2 ^ 32 - 1 := by norm_num
  rw [e, Nat.testBit_two_pow_sub_succ hx, notWord, e2, Nat.testBit_xor,
    Nat.testBit_two_pow_sub_one]
  by_cases hi : i < 32
  · simp [hi]
  · rw [testBit_word_high x i hx (by omega)]
    simp [hi]

/-- Four bytes assembled with shifts and `|` are the big-endian number they spell. -/
theorem word_of_or (b0 b1 b2 b3 : Nat) (h0 : b0 < 2 ^ 8) (h1 : b1 < 2 ^ 8) (h2 : b2 < 2 ^ 8)
    (h3 : b3 < 2 ^ 8) :
    toWord (b0 <<< 0x18) ||| toWord (b1 <<< 0x10) ||| toWord (b2 <<< 0x08) ||| toWord (b3 <<< 0x00)
      = b0 * 2 ^ 24 + b1 * 2 ^ 16 + b2 * 2 ^ 8 + b3 := by
  have t0 : toWord (b0 <<< 0x18) = 2 ^ 24 * b0 := by
    unfold toWord; rw [Nat.shiftLeft_eq]; norm_num at h0 ⊢; omega
  have t1 : toWord (b1 <<< 0x10) = 2 ^ 16 * b1 := by
    unfold toWord; rw [Nat.shiftLeft_eq]; norm_num at h1 ⊢; omega
  have t2 : toWord (b2 <<< 0x08) = 2 ^ 8 * b2 := by
    unfold toWord; rw [Nat.shiftLeft_eq]; norm_num at h2 ⊢; omega
  have t3 : toWord (b3 <<< 0x00) = b3 := by
    unfold toWord; rw [Nat.shiftLeft_eq]; norm_num at h3 ⊢; omega
  rw [t0, t1, t2, t3, Nat.or_assoc, Nat.or_assoc]
  rw [← Nat.mul_add_lt_is_or h3 b2]
  have h23 : 2 ^ 8 * b2 + b3 < 2 ^ 16 := by norm_num at h2 h3 ⊢; omega
  rw [← Nat.mul_add_lt_is_or h23 b1]
  have h123 : 2 ^ 16 * b1 + (2 ^ 8 * b2 + b3) < 2 ^ 24 := by norm_num at h1 h2 h3 ⊢; omega
  rw [← Nat.mul_add_lt_is_or h123 b0]
  ring

/-! ### The message schedule -/

/-- The first loop from counter `i`: the entries `i .. i + n - 1` receive the words
assembled from the chunk, the others keep their contents. -/
theorem loadWords_spec (chunk : List Nat) : ∀ (n i : Nat) (w : List Nat), i + n ≤ w.length →
    (loadWords chunk n i w).length = w.length ∧
    ∀ q, (loadWords chunk n i w).getD q 0
      = if i ≤ q ∧ q < i + n then
          toWord (chunk.getD (q * 4 + 0) 0 <<< 0x18) ||| toWord (chunk.getD (q * 4 + 1) 0 <<< 0x10)
            ||| toWord (chunk.getD (q * 4 + 2) 0 <<< 0x08)
            ||| toWord (chunk.getD (q * 4 + 3) 0 <<< 0x00)
        else w.getD q 0 := by
  intro n
  induction n with
  | zero =>
    intro i w _
    refine ⟨rfl, ?_⟩
    intro q
    have c : ¬ (i ≤ q ∧ q < i + 0) := by omega
    rw [if_neg c]
    rfl
  | succ n ih =>
    intro i w hi
    rw [loadWords]
    obtain ⟨h1, h2⟩ := ih (i + 1) (w.set i
      (toWord (chunk.getD (i * 4 + 0) 0 <<< 0x18) ||| toWord (chunk.getD (i * 4 + 1) 0 <<< 0x10)
        ||| toWord (chunk.getD (i * 4 + 2) 0 <<< 0x08)
        ||| toWord (chunk.getD (i * 4 + 3) 0 <<< 0x00))) (by simp; omega)
    refine ⟨by rw [h1]; simp, ?_⟩
    intro q
    rw [h2 q]
    by_cases hq : q = i
    · subst hq
      have c1 : ¬ (q + 1 ≤ q ∧ q < q + 1 + n) := by omega
      have c2 : q ≤ q ∧ q < q + (n + 1) := by omega
      rw [if_neg c1, if_pos c2, getD_set_eq _ _ _ (by omega)]
    · by_cases hin : i + 1 ≤ q ∧ q < i + 1 + n
      · have c2 : i ≤ q ∧ q < i + (n + 1) := by omega
        rw [if_pos hin, if_pos c2]
      · have c2 : ¬ (i ≤ q ∧ q < i + (n + 1)) := by omega
        rw [if_neg hin, if_neg c2, getD_set_ne _ _ _ _ (by omega)]

/-- The second loop from counter `i ≥ 16`: the entries outside `i .. i + n - 1` keep their
contents, and each entry `q` inside satisfies the recurrence on the final array. -/
theorem extendWords_spec : ∀ (n i : Nat) (w : List Nat), 16 ≤ i → i + n ≤ w.length →
    (extendWords n i w).length = w.length ∧
    (∀ q, q < i ∨ i + n ≤ q → (extendWords n i w).getD q 0 = w.getD q 0) ∧
    ∀ q, i ≤ q → q < i + n → (extendWords n i w).getD q 0
      = toWord ((extendWords n i w).getD (q - 16) 0 + s0 ((extendWords n i w).getD (q - 15) 0)
          + (extendWords n i w).getD (q - 7) 0 + s1 ((extendWords n i w).getD (q - 2) 0)) := by
  intro n
  induction n with
  | zero =>
    intro i w _ _
    exact ⟨rfl, fun _ _ => rfl, fun q h1 h2 => by omega⟩
  | succ n ih =>
    intro i w h16 hi
    have hstep : extendWords (n + 1) i w = extendWords n (i + 1)
        (w.set i (toWord (w.getD (i - 16) 0 + s0 (w.getD (i - 15) 0) + w.getD (i - 7) 0
          + s1 (w.getD (i - 2) 0)))) := rfl
    rw [hstep]
    generalize hw1 : w.set i (toWord (w.getD (i - 16) 0 + s0 (w.getD (i - 15) 0)
      + w.getD (i - 7) 0 + s1 (w.getD (i - 2) 0))) = w1
    have hlen1 : w1.length = w.length := by rw [← hw1]; simp
    obtain ⟨h1, h2, h3⟩ := ih (i + 1) w1 (by omega) (by omega)
    have hold : ∀ q, q ≠ i → w1.getD q 0 = w.getD q 0 := by
      intro q hq
      rw [← hw1, getD_set_ne _ _ _ _ (by omega)]
    refine ⟨by rw [h1, hlen1], ?_, ?_⟩
    · intro q hq
      rw [h2 q (by omega), hold q (by omega)]
    · intro q hq1 hq2
      by_cases hq : q = i
      · subst hq
        rw [h2 q (by omega), h2 (q - 16) (by omega), h2 (q - 15) (by omega),
          h2 (q - 7) (by omega), h2 (q - 2) (by omega), hold (q - 16) (by omega),
          hold (q - 15) (by omega), hold (q - 7) (by omega), hold (q - 2) (by omega), ← hw1,
          getD_set_eq _ _ _ (by omega)]
      · exact h3 q (by omega) (by omega)

/-- The schedule has 64 entries. -/
theorem length_schedule (chunk : List Nat) : (schedule chunk).length = 64 := by
  unfold schedule
  have h1 := (loadWords_spec chunk 16 0 (List.replicate 64 0) (by simp)).1
  rw [(extendWords_spec 48 16 _ (by omega) (by rw [h1]; simp)).1, h1]
  simp

/-- The first 16 entries of the schedule, as assembled by the code. -/
theorem schedule_low (chunk : List Nat) (q : Nat) (hq : q < 16) :
    (schedule chunk).getD q 0
      = toWord (chunk.getD (q * 4 + 0) 0 <<< 0x18) ||| toWord (chunk.getD (q * 4 + 1) 0 <<< 0x10)
          ||| toWord (chunk.getD (q * 4 + 2) 0 <<< 0x08)
          ||| toWord (chunk.getD (q * 4 + 3) 0 <<< 0x00) := by
  unfold schedule
  obtain ⟨h1, h2⟩ := loadWords_spec chunk 16 0 (List.replicate 64 0) (by simp)
  rw [(extendWords_spec 48 16 _ (by omega) (by rw [h1]; simp)).2.1 q (by omega), h2 q,
    if_pos (by omega)]

/-- The entries 16 to 63 of the schedule satisfy the recurrence of the code. -/
theorem schedule_high (chunk : List Nat) (q : Nat) (h16 : 16 ≤ q) (hq : q < 64) :
    (schedule chunk).getD q 0
      = toWord ((schedule chunk).getD (q - 16) 0 + s0 ((schedule chunk).getD (q - 15) 0)
          + (schedule chunk).getD (q - 7) 0 + s1 ((schedule chunk).getD (q - 2) 0)) := by
  unfold schedule
  have h1 := (loadWords_spec chunk 16 0 (List.replicate 64 0) (by simp)).1
  exact (extendWords_spec 48 16 _ (by omega) (by rw [h1]; simp)).2.2 q h16 (by omega)

/-- The mixing function `s0` of the code is `σ₀` of the standard. -/
theorem s0_eq (x : Nat) : s0 x = FIPS.smallSigma0 x := by
  unfold s0 FIPS.smallSigma0
  rw [ROTR_eq_rotr x 7 (by norm_num) (by norm_num), ROTR_eq_rotr x 18 (by norm_num) (by norm_num)]

/-- The mixing function `s1` of the code is `σ₁` of the standard. -/
theorem s1_eq (x : Nat) : s1 x = FIPS.smallSigma1 x := by
  unfold s1 FIPS.smallSigma1
  rw [ROTR_eq_rotr x 17 (by norm_num) (by norm_num), ROTR_eq_rotr x 19 (by norm_num) (by norm_num)]

/-- An entry of a block is a byte, also past the end. -/
theorem getD_lt_of_isBlock (chunk : List Nat) (h : IsBlock chunk) (k : Nat) :
    chunk.getD k 0 < 2 ^ 8 := by
  by_cases hk : k < chunk.length
  · rw [List.getD_eq_getElem _ _ hk]
    exact h.2 _ (List.getElem_mem hk)
  · rw [getD_of_length_le _ _ (by omega)]
    norm_num

/-! ### The compression rounds -/

/-- One pass of the round loop is one step of the standard on the list of working
variables, when `e` is a word. -/
theorem round_eq_step (w : List Nat) (i : Nat) (v : Vars) (he : v.e < 2 ^ 32) :
    (round w i v).toList = FIPS.step w v.toList i := by
  have hS1 : ROTR v.e 6 ^^^ ROTR v.e 11 ^^^ ROTR v.e 25 = FIPS.bigSigma1 v.e := by
    unfold FIPS.bigSigma1
    rw [ROTR_eq_rotr _ 6 (by norm_num) (by norm_num), ROTR_eq_rotr _ 11 (by norm_num) (by norm_num),
      ROTR_eq_rotr _ 25 (by norm_num) (by norm_num)]
  have hS0 : ROTR v.a 2 ^^^ ROTR v.a 13 ^^^ ROTR v.a 22 = FIPS.bigSigma0 v.a := by
    unfold FIPS.bigSigma0
    rw [ROTR_eq_rotr _ 2 (by norm_num) (by norm_num), ROTR_eq_rotr _ 13 (by norm_num) (by norm_num),
      ROTR_eq_rotr _ 22 (by norm_num) (by norm_num)]
  have hch : (v.e &&& v.f) ^^^ (notWord v.e &&& v.g) = FIPS.Ch v.e v.f v.g := by
    unfold FIPS.Ch
    rw [notWord_eq _ he]
  have hmaj : (v.a &&& v.b) ^^^ (v.a &&& v.c) ^^^ (v.b &&& v.c) = FIPS.Maj v.a v.b v.c := rfl
  simp only [round, Vars.toList, FIPS.step, hS1, hS0, hch, hmaj]
  generalize FIPS.bigSigma1 v.e = x1
  generalize FIPS.bigSigma0 v.a = x0
  generalize FIPS.Ch v.e v.f v.g = xc
  generalize FIPS.Maj v.a v.b v.c = xm
  generalize SHA256_K.getD i 0 = k
  generalize w.getD i 0 = wi
  have hT1 : toWord (v.h + x1 + xc + k + wi)
      = FIPS.add32 (FIPS.add32 (FIPS.add32 (FIPS.add32 v.h x1) xc) k) wi := by
    unfold toWord FIPS.add32
    omega
  have hT2 : toWord (x0 + xm) = FIPS.add32 x0 xm := rfl
  rw [hT1, hT2]
  generalize FIPS.add32 (FIPS.add32 (FIPS.add32 (FIPS.add32 v.h x1) xc) k) wi = T1
  generalize FIPS.add32 x0 xm = T2
  rfl

/-- After a pass of the round loop `e` is a word. -/
theorem round_word_e (w : List Nat) (i : Nat) (v : Vars) : (round w i v).e < 2 ^ 32 :=
  Nat.mod_lt _ (by norm_num)

/-- The round loop from counter `i` is the fold of the standard's step over the counters
`i .. i + n - 1`. -/
theorem rounds_eq_foldl (w : List Nat) : ∀ (n i : Nat) (v : Vars), v.e < 2 ^ 32 →
    (rounds w n i v).toList = (List.range' i n).foldl (FIPS.step w) v.toList := by
  intro n
  induction n with
  | zero => intro i v _; rfl
  | succ n ih =>
    intro i v he
    rw [rounds, ih (i + 1) _ (round_word_e w i v), round_eq_step w i v he]
    rfl

/-- Function `sha256_chunk` adds to each state word the working variable that 64 steps of
the standard produce from the state, with the code's schedule. -/
theorem sha256_chunk_eq (hash chunk : List Nat) (h : IsState hash) :
    sha256_chunk hash chunk
      = List.zipWith FIPS.add32 hash
          ((List.range 64).foldl (FIPS.step (schedule chunk)) hash) := by
  obtain ⟨hl, hw⟩ := h
  match hash, hl, hw with
  | [a, b, c, d, e, f, g, h], _, hw =>
    have hr := rounds_eq_foldl (schedule chunk) 64 0 ⟨a, b, c, d, e, f, g, h⟩ (hw e (by simp))
    rw [List.range_eq_range']
    have e1 : (⟨a, b, c, d, e, f, g, h⟩ : Vars).toList = [a, b, c, d, e, f, g, h] := rfl
    rw [e1] at hr
    rw [← hr]
    rfl

/-! ### The compression function of the standard -/

/-- The words of a block, entry by entry. -/
theorem blockWords_spec : ∀ (n : Nat) (bs : List Nat) (t : Nat), t < n →
    (FIPS.blockWords n bs).getD t 0
      = bs.getD (4 * t) 0 * 2 ^ 24 + bs.getD (4 * t + 1) 0 * 2 ^ 16 + bs.getD (4 * t + 2) 0 * 2 ^ 8
          + bs.getD (4 * t + 3) 0 := by
  intro n
  induction n with
  | zero => intro bs t ht; omega
  | succ n ih =>
    intro bs t ht
    cases t with
    | zero => rfl
    | succ t =>
      rw [FIPS.blockWords, List.getD_cons_succ, ih (bs.drop 4) t (by omega)]
      have e : ∀ k, (bs.drop 4).getD k 0 = bs.getD (4 + k) 0 := by
        intro k
        simp [List.getElem?_drop]
      rw [e, e, e, e]
      have e0 : 4 + 4 * t = 4 * (t + 1) := by omega
      have e1 : 4 + (4 * t + 1) = 4 * (t + 1) + 1 := by omega
      have e2 : 4 + (4 * t + 2) = 4 * (t + 1) + 2 := by omega
      have e3 : 4 + (4 * t + 3) = 4 * (t + 1) + 3 := by omega
      rw [e0, e1, e2, e3]

/-- The number of words of a block. -/
theorem length_blockWords : ∀ (n : Nat) (bs : List Nat), (FIPS.blockWords n bs).length = n := by
  intro n
  induction n with
  | zero => intro bs; rfl
  | succ n ih => intro bs; simp [FIPS.blockWords, ih]

/-- The expansion of the standard keeps the words it starts from and appends words that
satisfy the recurrence on the final list. -/
theorem expand_spec : ∀ (n : Nat) (W : List Nat), 16 ≤ W.length →
    (FIPS.expand n W).length = W.length + n ∧
    (∀ q, q < W.length → (FIPS.expand n W).getD q 0 = W.getD q 0) ∧
    ∀ q, W.length ≤ q → q < W.length + n → (FIPS.expand n W).getD q 0
      = FIPS.add32 (FIPS.add32 (FIPS.add32 (FIPS.smallSigma1 ((FIPS.expand n W).getD (q - 2) 0))
          ((FIPS.expand n W).getD (q - 7) 0)) (FIPS.smallSigma0 ((FIPS.expand n W).getD (q - 15) 0)))
          ((FIPS.expand n W).getD (q - 16) 0) := by
  intro n
  induction n with
  | zero =>
    intro W _
    exact ⟨rfl, fun _ _ => rfl, fun q h1 h2 => by omega⟩
  | succ n ih =>
    intro W h16
    have hstep : FIPS.expand (n + 1) W = FIPS.expand n (W ++
        [FIPS.add32 (FIPS.add32 (FIPS.add32 (FIPS.smallSigma1 (W.getD (W.length - 2) 0))
          (W.getD (W.length - 7) 0)) (FIPS.smallSigma0 (W.getD (W.length - 15) 0)))
          (W.getD (W.length - 16) 0)]) := rfl
    rw [hstep]
    generalize hW1 : W ++ [FIPS.add32 (FIPS.add32 (FIPS.add32
      (FIPS.smallSigma1 (W.getD (W.length - 2) 0)) (W.getD (W.length - 7) 0))
      (FIPS.smallSigma0 (W.getD (W.length - 15) 0))) (W.getD (W.length - 16) 0)] = W1
    have hlen1 : W1.length = W.length + 1 := by rw [← hW1]; simp
    obtain ⟨h1, h2, h3⟩ := ih W1 (by omega)
    have hold : ∀ q, q < W.length → W1.getD q 0 = W.getD q 0 := by
      intro q hq
      rw [← hW1, List.getD_append _ _ _ _ hq]
    refine ⟨by rw [h1, hlen1]; omega, ?_, ?_⟩
    · intro q hq
      rw [h2 q (by omega), hold q hq]
    · intro q hq1 hq2
      by_cases hq : q = W.length
      · subst hq
        rw [h2 _ (by omega), h2 (W.length - 16) (by omega), h2 (W.length - 15) (by omega),
          h2 (W.length - 7) (by omega), h2 (W.length - 2) (by omega),
          hold (W.length - 16) (by omega), hold (W.length - 15) (by omega),
          hold (W.length - 7) (by omega), hold (W.length - 2) (by omega), ← hW1,
          List.getD_append_right _ _ _ _ (Nat.le_refl _)]
        simp
      · exact h3 q (by omega) (by omega)

/-- The schedule of the code is, entry by entry, the message schedule of the standard. -/
theorem schedule_eq_messageSchedule (chunk : List Nat) (hc : IsBlock chunk) :
    ∀ t, t < 64 → (schedule chunk).getD t 0 = (FIPS.messageSchedule chunk).getD t 0 := by
  have hl : (FIPS.blockWords 16 chunk).length = 16 := length_blockWords 16 chunk
  obtain ⟨-, e2, e3⟩ := expand_spec 48 (FIPS.blockWords 16 chunk) (by omega)
  rw [hl] at e2 e3
  intro t
  induction t using Nat.strong_induction_on with
  | _ t ih =>
    intro ht
    by_cases h16 : t < 16
    · rw [FIPS.messageSchedule, e2 t h16, blockWords_spec 16 chunk t h16,
        schedule_low chunk t h16, word_of_or _ _ _ _ (getD_lt_of_isBlock chunk hc _)
        (getD_lt_of_isBlock chunk hc _) (getD_lt_of_isBlock chunk hc _)
        (getD_lt_of_isBlock chunk hc _)]
      have e : t * 4 + 0 = 4 * t := by omega
      have e1 : t * 4 + 1 = 4 * t + 1 := by omega
      have e2 : t * 4 + 2 = 4 * t + 2 := by omega
      have e3 : t * 4 + 3 = 4 * t + 3 := by omega
      rw [e, e1, e2, e3]
    · rw [FIPS.messageSchedule, e3 t (by omega) (by omega), schedule_high chunk t (by omega) ht,
        ih (t - 16) (by omega) (by omega), ih (t - 15) (by omega) (by omega),
        ih (t - 7) (by omega) (by omega), ih (t - 2) (by omega) (by omega), s0_eq, s1_eq,
        FIPS.messageSchedule]
      unfold toWord FIPS.add32
      omega

/-- A step of the standard reads only entry `t` of the schedule. -/
theorem step_congr (W W' v : List Nat) (t : Nat) (h : W.getD t 0 = W'.getD t 0) :
    FIPS.step W v t = FIPS.step W' v t := by
  unfold FIPS.step
  rw [h]

/-- The steps over a list of counters read only those entries of the schedule. -/
theorem foldl_step_congr (W W' : List Nat) : ∀ (l : List Nat) (v : List Nat),
    (∀ t ∈ l, W.getD t 0 = W'.getD t 0) →
    l.foldl (FIPS.step W) v = l.foldl (FIPS.step W') v := by
  intro l
  induction l with
  | nil => intro v _; rfl
  | cons t l ih =>
    intro v h
    rw [List.foldl_cons, List.foldl_cons, step_congr W W' v t (h t (by simp)),
      ih _ (fun s hs => h s (by simp [hs]))]

/-- Adding two lists of words entry by entry does not depend on the order. -/
theorem zipWith_add32_comm (l₁ l₂ : List Nat) :
    List.zipWith FIPS.add32 l₁ l₂ = List.zipWith FIPS.add32 l₂ l₁ := by
  rw [List.zipWith_comm]
  congr 1
  funext x y
  unfold FIPS.add32
  rw [Nat.add_comm]

/-- On a state and a block of bytes `sha256_chunk` is the compression function of the
standard. -/
theorem sha256_chunk_eq_compress (hash chunk : List Nat) (hh : IsState hash)
    (hc : IsBlock chunk) : sha256_chunk hash chunk = FIPS.compress hash chunk := by
  rw [sha256_chunk_eq hash chunk hh, FIPS.compress, zipWith_add32_comm,
    foldl_step_congr (schedule chunk) (FIPS.messageSchedule chunk) (List.range 64) hash
      (fun t ht => schedule_eq_messageSchedule chunk hc t (List.mem_range.1 ht))]

/-! ### Agreement with the standard -/

/-- The stream bytes are bytes when the message bytes are. -/
theorem streamAt_lt (msg : List Nat) (hmsg : ∀ b ∈ msg, b < 2 ^ 8) (msg_len tot_len : Int)
    (L : Nat) (i : Int) : streamAt msg msg_len tot_len L i < 2 ^ 8 := by
  have hb : ∀ y : Nat, toByte y < 2 ^ 8 := fun y => Nat.mod_lt _ (by norm_num)
  have hg : msg.getD i.toNat 0 < 2 ^ 8 := by
    by_cases hk : i.toNat < msg.length
    · rw [List.getD_eq_getElem _ _ hk]
      exact hmsg _ (List.getElem_mem hk)
    · rw [getD_of_length_le _ _ (by omega)]
      norm_num
  unfold streamAt
  split_ifs <;> first | exact hg | exact hb _ | norm_num

/-- The blocks fed to `sha256_chunk` are blocks of bytes when the message bytes are. -/
theorem isBlock_streamBlocks (msg : List Nat) (hmsg : ∀ b ∈ msg, b < 2 ^ 8)
    (msg_len tot_len : Int) (L : Nat) : ∀ (m : Nat) (i : Int),
    ∀ b ∈ streamBlocks msg msg_len tot_len L i m, IsBlock b := by
  intro m
  induction m with
  | zero => intro i b hb; simp [streamBlocks] at hb
  | succ m ih =>
    intro i b hb
    rw [streamBlocks, List.mem_cons] at hb
    rcases hb with rfl | hb
    · refine ⟨by simp [streamBlock], ?_⟩
      intro x hx
      simp only [streamBlock, List.mem_map] at hx
      obtain ⟨k, -, rfl⟩ := hx
      exact streamAt_lt msg hmsg _ _ _ _
    · exact ih _ b hb

/-- Folding `sha256_chunk` over blocks of bytes is folding the compression function of the
standard. -/
theorem foldl_sha256_chunk_eq : ∀ (B : List (List Nat)) (hash : List Nat), IsState hash →
    (∀ b ∈ B, IsBlock b) → B.foldl sha256_chunk hash = B.foldl FIPS.compress hash := by
  intro B
  induction B with
  | nil => intro hash _ _; rfl
  | cons b B ih =>
    intro hash hh hB
    rw [List.foldl_cons, List.foldl_cons,
      ← sha256_chunk_eq_compress hash b hh (hB b (by simp))]
    exact ih _ (isState_sha256_chunk hash b) (fun c hc => hB c (by simp [hc]))

/-- The eight bytes of a bit length below `2 ^ 32` are four zero bytes and the four bytes of
the code's trailer. -/
theorem bigEndian_eight (x : Nat) (hx : x < 2 ^ 32) :
    bigEndian 8 x = [0, 0, 0, 0] ++ bigEndian 4 x := by
  have e : bigEndian 8 x = [toByte (x >>> 56), toByte (x >>> 48), toByte (x >>> 40),
      toByte (x >>> 32)] ++ bigEndian 4 x := rfl
  have z : ∀ s, 32 ≤ s → toByte (x >>> s) = 0 := by
    intro s hs
    unfold toByte
    rw [Nat.shiftRight_eq_div_pow, Nat.div_eq_of_lt
      (Nat.lt_of_lt_of_le hx (Nat.pow_le_pow_right (by norm_num) hs))]
    rfl
  rw [e, z 56 (by norm_num), z 48 (by norm_num), z 40 (by norm_num), z 32 (by norm_num)]

/-- For a length below `2 ^ 29` that leaves room for eight trailer bytes, the stream of the
code is the padded message of the standard. -/
theorem codeStream_eq_pad (msg : List Nat) (hL : msg.length < 2 ^ 29)
    (hmod : msg.length % 64 < 56 ∨ 60 ≤ msg.length % 64) :
    codeStream msg = FIPS.pad msg := by
  have hp : (((-((msg.length : Int) + 5)) % 64).toNat : Int) = (-((msg.length : Int) + 5)) % 64 :=
    Int.toNat_of_nonneg (by omega)
  have hpad : ((-((msg.length : Int) + 5)) % 64).toNat = (119 - msg.length % 64) % 64 + 4 := by
    omega
  have h32 : 8 * msg.length < 2 ^ 32 := by norm_num at hL ⊢; omega
  unfold codeStream FIPS.pad
  rw [hpad, bigEndian_eight _ h32, List.replicate_add]
  have e4 : List.replicate 4 (0 : Nat) = [0, 0, 0, 0] := rfl
  rw [e4]
  simp only [List.append_assoc]

/-! ### The padded stream, the digest and the block loop, for every message -/

/-- C11, as claimed, fails for a message of 2147483580 bytes: `tot_len` wraps to a negative
value, the block loop makes no pass, and the stream fed to `sha256_chunk` is empty, so it
has no byte `0x80` at position `msg_len`. -/
theorem fedStream_empty_at_2147483580 :
    (List.replicate 2147483580 (0 : Nat)).length = 2147483580 ∧
    fedStream (List.replicate 2147483580 0) 2147483580 = some [] ∧
    ¬ ∃ s, fedStream (List.replicate 2147483580 0) 2147483580 = some s ∧
      s.getD 2147483580 0 = 0x80 := by
  have h : fedStream (List.replicate 2147483580 0) 2147483580 = some [] := by decide!
  refine ⟨List.length_replicate _ _, h, ?_⟩
  rintro ⟨s, hs, h80⟩
  rw [h] at hs
  obtain rfl : ([] : List Nat) = s := by simpa using hs
  simp at h80

/-- C11, amended: for every message of length `L ≤ INT_MAX - 68 = 2147483579` the stream
fed to `sha256_chunk` has `tot_len` bytes, begins with the message bytes unchanged and in
order, has the byte `0x80` at position `msg_len`, and is `0x00` at every position between
that marker and the length trailer; for the empty message it is `0x80`, 59 zero bytes and
the trailer. -/
theorem fedStream_layout (msg : List Nat) (hmax : (msg.length : Int) + 68 ≤ INT_MAX) :
    ∃ s t, fedStream msg (msg.length : Int) = some s ∧ totLen (msg.length : Int) = some t ∧
      (s.length : Int) = t ∧
      s.take msg.length = msg ∧
      s.getD msg.length 0 = 0x80 ∧
      (∀ q : Nat, msg.length < q → (q : Int) < t - 4 → s.getD q 0 = 0x00) ∧
      fedStream [] 0 = some (0x80 :: (List.replicate 59 0x00 ++ [0x00, 0x00, 0x00, 0x00])) := by
  have hp : (((-((msg.length : Int) + 5)) % 64).toNat : Int) = (-((msg.length : Int) + 5)) % 64 :=
    Int.toNat_of_nonneg (by omega)
  have hm : ((numBlocks (msg.length : Int) : Nat) : Int) = ((msg.length : Int) + 68) / 64 :=
    Int.toNat_of_nonneg (by omega)
  refine ⟨codeStream msg, _, fedStream_eq msg hmax, totLen_eq_blocks _ (by omega) hmax,
    ?_, ?_, ?_, ?_, ?_⟩
  · rw [length_codeStream]; push_cast; rfl
  · rw [codeStream_eq_append, List.take_left' rfl]
  · rw [codeStream_eq_append, List.getD_append_right _ _ _ _ (by omega)]
    simp
  · intro q h1 h2
    rw [codeStream_eq_append, List.getD_append_right _ _ _ _ (by omega)]
    obtain ⟨r, hr⟩ : ∃ r, q - msg.length = r + 1 := ⟨q - msg.length - 1, by omega⟩
    rw [hr, List.getD_cons_succ, List.getD_append _ _ _ _ (by simp; omega)]
    simp
  · decide!

/-- The amended C11 at the message `"abc"`. -/
theorem fedStream_layout_witness :
    (([0x61, 0x62, 0x63] : List Nat).length : Int) + 68 ≤ INT_MAX ∧
    ∃ s t, fedStream [0x61, 0x62, 0x63] (([0x61, 0x62, 0x63] : List Nat).length : Int) = some s ∧
      totLen (([0x61, 0x62, 0x63] : List Nat).length : Int) = some t ∧
      (s.length : Int) = t ∧
      s.take ([0x61, 0x62, 0x63] : List Nat).length = [0x61, 0x62, 0x63] ∧
      s.getD ([0x61, 0x62, 0x63] : List Nat).length 0 = 0x80 ∧
      (∀ q : Nat, ([0x61, 0x62, 0x63] : List Nat).length < q → (q : Int) < t - 4 →
        s.getD q 0 = 0x00) ∧
      fedStream [] 0 = some (0x80 :: (List.replicate 59 0x00 ++ [0x00, 0x00, 0x00, 0x00])) :=
  ⟨by decide, fedStream_layout [0x61, 0x62, 0x63] (by decide)⟩

/-- C12: for every message the digest has 32 bytes and is the big-endian serialisation of
the eight final state words in state order: byte `4 * i + k` is byte `k`, most significant
first, of `hash[i]`, and reading the digest back as eight big-endian words returns the
final state. -/
theorem sha256_digest_serialises (msg : List Nat) :
    ∃ hash digest, finalHash msg (msg.length : Int) = some hash ∧
      sha256 msg (msg.length : Int) = some digest ∧
      digest.length = 32 ∧
      (∀ i k, i < 8 → k < 4 →
        digest.getD (4 * i + k) 0 = toByte (hash.getD i 0 >>> (8 * (3 - k)))) ∧
      FIPS.blockWords 8 digest = hash := by
  obtain ⟨t, -, -, hf, -⟩ := run_eq msg (msg.length : Int)
  have hst := isState_foldl (streamBlocks msg (msg.length : Int) t (bitLen (msg.length : Int)) 0
    (t / 64).toNat) seed isState_seed
  generalize (streamBlocks msg (msg.length : Int) t (bitLen (msg.length : Int)) 0
    (t / 64).toNat).foldl sha256_chunk seed = hash at hf hst
  refine ⟨hash, writeDigest hash 8 0 (List.replicate 32 0), hf, ?_, ?_, ?_, ?_⟩
  · rw [sha256_eq_finalHash, hf]
    rfl
  · rw [writeDigest_eq]; rfl
  · intro i k hi hk
    rw [writeDigest_eq]
    interval_cases i <;> interval_cases k <;> rfl
  · rw [writeDigest_eq_serialise _ hst.1]
    exact blockWords_serialise _ hst

/-- C14, as claimed, fails at the length `INT_MAX = 2147483647`: `tot_len` wraps to
`-2147483584`, and `sha256_chunk` is called 0 times, not `tot_len / 64` times. -/
theorem no_call_at_2147483647 :
    (0 : Int) ≤ 2147483647 ∧ totLen 2147483647 = some (-2147483584) ∧
    fedBlocks (List.replicate 2147483647 0) 2147483647 = some [] ∧
    ¬ ∃ t B, totLen 2147483647 = some t ∧
      fedBlocks (List.replicate 2147483647 0) 2147483647 = some B ∧
      (B.length : Int) = t / 64 := by
  have ht : totLen 2147483647 = some (-2147483584) := by decide!
  have hB : fedBlocks (List.replicate 2147483647 0) 2147483647 = some [] := by decide!
  refine ⟨by decide, ht, hB, ?_⟩
  rintro ⟨t, B, h1, h2, h3⟩
  rw [ht] at h1
  rw [hB] at h2
  obtain rfl : (-2147483584 : Int) = t := by simpa using h1
  obtain rfl : ([] : List (List Nat)) = B := by simpa using h2
  revert h3
  decide

/-- C14, amended: for every message and length `L` with `0 ≤ L ≤ INT_MAX - 68`, `sha256`
terminates with a digest: the padding search stops after at most 63 increments,
`sha256_chunk` is called exactly `tot_len / 64` times, and the run with the loops of
`sha256_chunk` as the guarded `while` loops of the source reaches the same final state and
logs, for each of these calls, 48 passes of the schedule loop and 64 passes of the round
loop; a single call does so for any state and block. -/
theorem sha256_terminates (msg : List Nat) (L : Int) (hL : 0 ≤ L) (hmax : L + 68 ≤ INT_MAX) :
    ∃ p t B d, padLen L = some p ∧ 0 ≤ p ∧ p ≤ 63 ∧
      totLen L = some t ∧
      fedBlocks msg L = some B ∧ (B.length : Int) = t / 64 ∧
      sha256 msg L = some d ∧
      (∀ fuel : Nat, 64 < fuel → ∃ hash, finalHash msg L = some hash ∧
        sha256_counted fuel msg L = some (hash, List.replicate B.length (48, 64))) ∧
      (∀ (hash chunk : List Nat) (fuel : Nat), 64 < fuel →
        sha256_chunk_counted fuel hash chunk = some (sha256_chunk hash chunk, 48, 64)) := by
  obtain ⟨p, hp, hp0, hp63⟩ := padLen_bounds L
  obtain ⟨d, hd⟩ := sha256_defined msg L
  have htot := totLen_eq_blocks L hL hmax
  have hm : ((numBlocks L : Nat) : Int) = (L + 68) / 64 := Int.toNat_of_nonneg (by omega)
  refine ⟨p, _, _, d, hp, hp0, hp63, htot, fedBlocks_eq msg L hL hmax, ?_, hd, ?_, ?_⟩
  · rw [length_streamBlocks]; omega
  · intro fuel hf
    obtain ⟨t, hash, ht, hfin, hrun⟩ := sha256_counted_eq fuel hf msg L
    rw [htot] at ht
    obtain rfl : 64 * (numBlocks L : Int) = t := by simpa using ht
    refine ⟨hash, hfin, ?_⟩
    rw [hrun, length_streamBlocks]
    congr 3
    omega
  · intro hash chunk fuel hf
    exact sha256_chunk_counted_eq fuel hash chunk hf

/-- The amended C14 at the message `"abc"` with the length 3. -/
theorem sha256_terminates_witness :
    (0 : Int) ≤ 3 ∧ (3 : Int) + 68 ≤ INT_MAX ∧ ∃ p t B d, padLen 3 = some p ∧ 0 ≤ p ∧ p ≤ 63 ∧
      totLen 3 = some t ∧
      fedBlocks [0x61, 0x62, 0x63] 3 = some B ∧ (B.length : Int) = t / 64 ∧
      sha256 [0x61, 0x62, 0x63] 3 = some d ∧
      (∀ fuel : Nat, 64 < fuel → ∃ hash, finalHash [0x61, 0x62, 0x63] 3 = some hash ∧
        sha256_counted fuel [0x61, 0x62, 0x63] 3
          = some (hash, List.replicate B.length (48, 64))) ∧
      (∀ (hash chunk : List Nat) (fuel : Nat), 64 < fuel →
        sha256_chunk_counted fuel hash chunk = some (sha256_chunk hash chunk, 48, 64)) :=
  ⟨by decide, by decide, sha256_terminates [0x61, 0x62, 0x63] 3 (by decide) (by decide)⟩

/-- C18: for every message of fewer than `2 ^ 28` bytes the product `msg_len * 8` stays in
the range of `int`, `L` is that product, and the last four bytes of the padded stream are
the bytes `L >> 24`, `L >> 16`, `L >> 8`, `L`, truncated to 8 bits: the big-endian 32-bit
encoding of `8 * msg_len`. -/
theorem trailer_encodes_bit_length (msg : List Nat) (hL : msg.length < 2 ^ 28) :
    INT_MIN ≤ (msg.length : Int) * 8 ∧ (msg.length : Int) * 8 ≤ INT_MAX ∧
    bitLen (msg.length : Int) = 8 * msg.length ∧
    (fedStream msg (msg.length : Int)).map (lastBytes 4)
      = some [toByte (bitLen (msg.length : Int) >>> 0x18),
              toByte (bitLen (msg.length : Int) >>> 0x10),
              toByte (bitLen (msg.length : Int) >>> 0x08),
              toByte (bitLen (msg.length : Int) >>> 0x00)] ∧
    (fedStream msg (msg.length : Int)).map (lastBytes 4) = some (bigEndian 4 (8 * msg.length)) ∧
    FIPS.blockWords 1 (bigEndian 4 (8 * msg.length)) = [8 * msg.length] := by
  have hb : bitLen (msg.length : Int) = 8 * msg.length := bitLen_small _ hL
  have hs : (fedStream msg (msg.length : Int)).map (lastBytes 4)
      = some (bigEndian 4 (8 * msg.length)) := by
    rw [fedStream_eq msg (fits_of_lt _ (by omega)), Option.map_some', lastBytes_codeStream]
  refine ⟨?_, ?_, hb, ?_, hs, ?_⟩
  · unfold INT_MIN; norm_num; omega
  · unfold INT_MAX; norm_num at hL ⊢; omega
  · rw [hs, hb]; rfl
  · have h32 : 8 * msg.length < 2 ^ 32 := by norm_num at hL ⊢; omega
    have e : FIPS.blockWords 1 (bigEndian 4 (8 * msg.length))
        = [toByte ((8 * msg.length) >>> 24) * 2 ^ 24 + toByte ((8 * msg.length) >>> 16) * 2 ^ 16
            + toByte ((8 * msg.length) >>> 8) * 2 ^ 8 + toByte ((8 * msg.length) >>> 0)] := rfl
    rw [e, word_of_bytes _ h32]

/-- Claim C18 at the message `"abc"`. -/
theorem trailer_encodes_bit_length_witness :
    [0x61, 0x62, 0x63].length < 2 ^ 28 ∧
    INT_MIN ≤ (([0x61, 0x62, 0x63] : List Nat).length : Int) * 8 ∧
    (([0x61, 0x62, 0x63] : List Nat).length : Int) * 8 ≤ INT_MAX ∧
    bitLen (([0x61, 0x62, 0x63] : List Nat).length : Int) = 8 * [0x61, 0x62, 0x63].length ∧
    (fedStream [0x61, 0x62, 0x63] (([0x61, 0x62, 0x63] : List Nat).length : Int)).map (lastBytes 4)
      = some [toByte (bitLen (([0x61, 0x62, 0x63] : List Nat).length : Int) >>> 0x18),
              toByte (bitLen (([0x61, 0x62, 0x63] : List Nat).length : Int) >>> 0x10),
              toByte (bitLen (([0x61, 0x62, 0x63] : List Nat).length : Int) >>> 0x08),
              toByte (bitLen (([0x61, 0x62, 0x63] : List Nat).length : Int) >>> 0x00)] ∧
    (fedStream [0x61, 0x62, 0x63] (([0x61, 0x62, 0x63] : List Nat).length : Int)).map (lastBytes 4)
      = some (bigEndian 4 (8 * [0x61, 0x62, 0x63].length)) ∧
    FIPS.blockWords 1 (bigEndian 4 (8 * [0x61, 0x62, 0x63].length))
      = [8 * [0x61, 0x62, 0x63].length] :=
  ⟨by decide, trailer_encodes_bit_length [0x61, 0x62, 0x63] (by decide)⟩

/-- C19: for every message and length `L ≥ 0`: at every stream index below `tot_len` a
branch of the chain fires, so the pass stores a byte that does not depend on the buffer;
the `k`-th block pass leaves in the buffer the `k`-th block fed to `sha256_chunk`, whatever
the buffer held before; and the blocks and the digest depend on `msg` only through
`msg[0 .. L - 1]`. -/
theorem chunk_fully_assigned (msg : List Nat) (L : Int) (hL : 0 ≤ L) :
    ∃ t B, totLen L = some t ∧ fedBlocks msg L = some B ∧
      (∀ i : Int, 0 ≤ i → i < t → ∃ b, ∀ (j : Nat) (chunk : List Nat),
        fillByte msg L t (bitLen L) j i chunk = chunk.set j b) ∧
      (∀ (k : Nat) (chunk : List Nat), k < B.length → chunk.length = 64 →
        fillChunk msg L t (bitLen L) 64 0 (64 * (k : Int)) chunk
          = (B.getD k [], 64 * (k : Int) + 64)) ∧
      (∀ msg' : List Nat, (∀ q : Nat, (q : Int) < L → msg'.getD q 0 = msg.getD q 0) →
        fedBlocks msg' L = some B ∧ sha256 msg' L = sha256 msg L) := by
  have _ := hL
  obtain ⟨t, ht, hmod, hf, hfed⟩ := run_eq msg L
  refine ⟨t, _, ht, hfed, ?_, ?_, ?_⟩
  · intro i _ hi
    exact ⟨_, fun j chunk => fillByte_eq_set msg L _ (bitLen L) j i chunk hi⟩
  · intro k chunk hk hc
    rw [length_streamBlocks] at hk
    rw [getD_streamBlocks _ _ _ _ _ _ _ hk, fillChunk_full _ _ _ _ _ _ hc (by omega)]
    simp
  · intro msg' h
    obtain ⟨t', ht', -, hf', hfed'⟩ := run_eq msg' L
    rw [ht] at ht'
    obtain rfl : t = t' := by simpa using ht'
    have hB := streamBlocks_congr msg msg' L t (bitLen L) h (t / 64).toNat 0 (by omega)
    refine ⟨by rw [hfed', hB], ?_⟩
    rw [sha256_eq_finalHash, sha256_eq_finalHash, hf', hf, hB]

/-- Claim C19 at the message `"abc"` with the length 3. -/
theorem chunk_fully_assigned_witness :
    (0 : Int) ≤ 3 ∧ ∃ t B, totLen 3 = some t ∧ fedBlocks [0x61, 0x62, 0x63] 3 = some B ∧
      (∀ i : Int, 0 ≤ i → i < t → ∃ b, ∀ (j : Nat) (chunk : List Nat),
        fillByte [0x61, 0x62, 0x63] 3 t (bitLen 3) j i chunk = chunk.set j b) ∧
      (∀ (k : Nat) (chunk : List Nat), k < B.length → chunk.length = 64 →
        fillChunk [0x61, 0x62, 0x63] 3 t (bitLen 3) 64 0 (64 * (k : Int)) chunk
          = (B.getD k [], 64 * (k : Int) + 64)) ∧
      (∀ msg' : List Nat,
        (∀ q : Nat, (q : Int) < 3 → msg'.getD q 0 = ([0x61, 0x62, 0x63] : List Nat).getD q 0) →
        fedBlocks msg' 3 = some B ∧ sha256 msg' 3 = sha256 [0x61, 0x62, 0x63] 3) :=
  ⟨by decide, chunk_fully_assigned [0x61, 0x62, 0x63] 3 (by decide)⟩

/-- C20: a negative length is not rejected: for every `msg_len ≤ -5` and any `msg`,
`tot_len ≤ 0`, no block is passed to `sha256_chunk`, and the digest is the serialised seed
`6a09e667bb67ae853c6ef372a54ff53a510e527f9b05688c1f83d9ab5be0cd19`, the same for every
`msg`. -/
theorem sha256_negative_length (msg : List Nat) (L : Int) (hL : L ≤ -5) :
    ∃ t, totLen L = some t ∧ t ≤ 0 ∧ fedBlocks msg L = some [] ∧
      finalHash msg L = some seed ∧
      sha256 msg L = some
        [0x6a, 0x09, 0xe6, 0x67, 0xbb, 0x67, 0xae, 0x85, 0x3c, 0x6e, 0xf3, 0x72, 0xa5, 0x4f, 0xf5,
         0x3a, 0x51, 0x0e, 0x52, 0x7f, 0x9b, 0x05, 0x68, 0x8c, 0x1f, 0x83, 0xd9, 0xab, 0x5b, 0xe0,
         0xcd, 0x19] := by
  have ht : L + 1 + (-(L + 5)) % 64 + 4 ≤ 0 := by omega
  have hfit : intSum (L + 1 + (-(L + 5)) % 64 + 4) = L + 1 + (-(L + 5)) % 64 + 4 :=
    intSum_eq_self _ (by unfold INT_MAX; omega)
  have htot : totLen L = some (L + 1 + (-(L + 5)) % 64 + 4) := by rw [totLen_eq, hfit]
  have hf : finalHash msg L = some seed := by
    simp only [finalHash, htot]
    exact blockLoop_exit _ _ _ _ _ _ _ _ _ ht
  refine ⟨_, htot, ht, ?_, hf, ?_⟩
  · simp only [fedBlocks, htot]
    exact blockLoop_exit _ _ _ _ _ _ _ _ _ ht
  · rw [sha256_eq_finalHash, hf, Option.map_some', writeDigest_seed]

/-- Claim C20 at the length `-5` with a message buffer of three bytes. -/
theorem sha256_negative_length_witness :
    (-5 : Int) ≤ -5 ∧ ∃ t, totLen (-5) = some t ∧ t ≤ 0 ∧
      fedBlocks [0x61, 0x62, 0x63] (-5) = some [] ∧
      finalHash [0x61, 0x62, 0x63] (-5) = some seed ∧
      sha256 [0x61, 0x62, 0x63] (-5) = some
        [0x6a, 0x09, 0xe6, 0x67, 0xbb, 0x67, 0xae, 0x85, 0x3c, 0x6e, 0xf3, 0x72, 0xa5, 0x4f, 0xf5,
         0x3a, 0x51, 0x0e, 0x52, 0x7f, 0x9b, 0x05, 0x68, 0x8c, 0x1f, 0x83, 0xd9, 0xab, 0x5b, 0xe0,
         0xcd, 0x19] :=
  ⟨by decide, sha256_negative_length [0x61, 0x62, 0x63] (-5) (by decide)⟩

/-! ### The compression function -/

/-- C15: for every 64-byte block the schedule `w` of `sha256_chunk` has 64 entries; for
`i < 16`, `w[i]` is the big-endian 32-bit word of `chunk[4i .. 4i+3]`; for `16 ≤ i < 64`,
`w[i] = (w[i-16] + σ₀(w[i-15]) + w[i-7] + σ₁(w[i-2])) mod 2^32` with `σ₀`, `σ₁` built from
the rotation of the standard; and for each count used in the schedule the macro `ROTR` is
that rotation, a true rotation of the 32 bits. -/
theorem schedule_spec (chunk : List Nat) (hc : IsBlock chunk) :
    (schedule chunk).length = 64 ∧
    (∀ i, i < 16 → (schedule chunk).getD i 0
      = chunk.getD (4 * i) 0 * 2 ^ 24 + chunk.getD (4 * i + 1) 0 * 2 ^ 16
          + chunk.getD (4 * i + 2) 0 * 2 ^ 8 + chunk.getD (4 * i + 3) 0) ∧
    (∀ i, 16 ≤ i → i < 64 → (schedule chunk).getD i 0
      = ((schedule chunk).getD (i - 16) 0 + FIPS.smallSigma0 ((schedule chunk).getD (i - 15) 0)
          + (schedule chunk).getD (i - 7) 0
          + FIPS.smallSigma1 ((schedule chunk).getD (i - 2) 0)) % 2 ^ 32) ∧
    (∀ x, FIPS.smallSigma0 x = FIPS.rotr 7 x ^^^ FIPS.rotr 18 x ^^^ (x >>> 3)) ∧
    (∀ x, FIPS.smallSigma1 x = FIPS.rotr 17 x ^^^ FIPS.rotr 19 x ^^^ (x >>> 10)) ∧
    (∀ x n, n ∈ [7, 18, 17, 19] → ROTR x n = FIPS.rotr n x) ∧
    (∀ x n j, x < 2 ^ 32 → n ∈ [7, 18, 17, 19] → j < 32 →
      (ROTR x n).testBit j = x.testBit ((j + n) % 32)) := by
  have hn : ∀ n, n ∈ [7, 18, 17, 19] → 0 < n ∧ n < 32 := by decide
  refine ⟨length_schedule chunk, ?_, ?_, fun _ => rfl, fun _ => rfl, ?_, ?_⟩
  · intro i hi
    rw [schedule_low chunk i hi, word_of_or _ _ _ _ (getD_lt_of_isBlock chunk hc _)
      (getD_lt_of_isBlock chunk hc _) (getD_lt_of_isBlock chunk hc _)
      (getD_lt_of_isBlock chunk hc _)]
    have e : i * 4 + 0 = 4 * i := by omega
    have e1 : i * 4 + 1 = 4 * i + 1 := by omega
    have e2 : i * 4 + 2 = 4 * i + 2 := by omega
    have e3 : i * 4 + 3 = 4 * i + 3 := by omega
    rw [e, e1, e2, e3]
  · intro i h16 hi
    rw [schedule_high chunk i h16 hi, s0_eq, s1_eq]
    rfl
  · intro x n h
    exact ROTR_eq_rotr x n (hn n h).1 (hn n h).2
  · intro x n j hx h hj
    rw [ROTR_eq_rotr x n (hn n h).1 (hn n h).2]
    exact rotr_testBit x n j hx (hn n h).1 (hn n h).2 hj

/-- Claim C15 at the block of 64 zero bytes. -/
theorem schedule_spec_witness :
    IsBlock (List.replicate 64 0) ∧
    (schedule (List.replicate 64 0)).length = 64 ∧
    (∀ i, i < 16 → (schedule (List.replicate 64 0)).getD i 0
      = (List.replicate 64 0).getD (4 * i) 0 * 2 ^ 24
          + (List.replicate 64 0).getD (4 * i + 1) 0 * 2 ^ 16
          + (List.replicate 64 0).getD (4 * i + 2) 0 * 2 ^ 8
          + (List.replicate 64 0).getD (4 * i + 3) 0) ∧
    (∀ i, 16 ≤ i → i < 64 → (schedule (List.replicate 64 0)).getD i 0
      = ((schedule (List.replicate 64 0)).getD (i - 16) 0
          + FIPS.smallSigma0 ((schedule (List.replicate 64 0)).getD (i - 15) 0)
          + (schedule (List.replicate 64 0)).getD (i - 7) 0
          + FIPS.smallSigma1 ((schedule (List.replicate 64 0)).getD (i - 2) 0)) % 2 ^ 32) ∧
    (∀ x, FIPS.smallSigma0 x = FIPS.rotr 7 x ^^^ FIPS.rotr 18 x ^^^ (x >>> 3)) ∧
    (∀ x, FIPS.smallSigma1 x = FIPS.rotr 17 x ^^^ FIPS.rotr 19 x ^^^ (x >>> 10)) ∧
    (∀ x n, n ∈ [7, 18, 17, 19] → ROTR x n = FIPS.rotr n x) ∧
    (∀ x n j, x < 2 ^ 32 → n ∈ [7, 18, 17, 19] → j < 32 →
      (ROTR x n).testBit j = x.testBit ((j + n) % 32)) :=
  ⟨⟨rfl, by decide⟩, schedule_spec (List.replicate 64 0) ⟨rfl, by decide⟩⟩

/-- C16: for every 8-word state `H` and every block, `sha256_chunk` returns
`H'[k] = (H[k] + v_k) mod 2^32`, where `v` is obtained from `H` by the 64 rounds
`i = 0 .. 63` in order, each round being the step `T1 = h + Σ₁(e) + Ch(e,f,g) + K[i] + W[i]`,
`T2 = Σ₀(a) + Maj(a,b,c)`, `(a, .., h) ← (T1 + T2, a, b, c, d + T1, e, f, g)` with additions
modulo `2^32`, `K = SHA256_K` and `W` the schedule of the block. -/
theorem sha256_chunk_spec (hash chunk : List Nat) (hh : IsState hash) :
    sha256_chunk hash chunk
      = List.zipWith (fun x y => (x + y) % 2 ^ 32) hash
          ((List.range 64).foldl (FIPS.step (schedule chunk)) hash) ∧
    (∀ (W : List Nat) (a b c d e f g h i : Nat),
      FIPS.step W [a, b, c, d, e, f, g, h] i =
        [(((((h + (FIPS.rotr 6 e ^^^ FIPS.rotr 11 e ^^^ FIPS.rotr 25 e)) % 2 ^ 32
              + ((e &&& f) ^^^ ((2 ^ 32 - 1 - e) &&& g))) % 2 ^ 32
              + SHA256_K.getD i 0) % 2 ^ 32 + W.getD i 0) % 2 ^ 32
            + ((FIPS.rotr 2 a ^^^ FIPS.rotr 13 a ^^^ FIPS.rotr 22 a)
                + ((a &&& b) ^^^ (a &&& c) ^^^ (b &&& c))) % 2 ^ 32) % 2 ^ 32,
         a, b, c,
         (d + ((((h + (FIPS.rotr 6 e ^^^ FIPS.rotr 11 e ^^^ FIPS.rotr 25 e)) % 2 ^ 32
              + ((e &&& f) ^^^ ((2 ^ 32 - 1 - e) &&& g))) % 2 ^ 32
              + SHA256_K.getD i 0) % 2 ^ 32 + W.getD i 0) % 2 ^ 32) % 2 ^ 32,
         e, f, g]) ∧
    (∀ x n, n ∈ [2, 6, 11, 13, 22, 25] → ROTR x n = FIPS.rotr n x) ∧
    (∀ x n j, x < 2 ^ 32 → n ∈ [2, 6, 11, 13, 22, 25] → j < 32 →
      (ROTR x n).testBit j = x.testBit ((j + n) % 32)) := by
  have hn : ∀ n, n ∈ [2, 6, 11, 13, 22, 25] → 0 < n ∧ n < 32 := by decide
  refine ⟨sha256_chunk_eq hash chunk hh, fun _ _ _ _ _ _ _ _ _ _ => rfl, ?_, ?_⟩
  · intro x n h
    exact ROTR_eq_rotr x n (hn n h).1 (hn n h).2
  · intro x n j hx h hj
    rw [ROTR_eq_rotr x n (hn n h).1 (hn n h).2]
    exact rotr_testBit x n j hx (hn n h).1 (hn n h).2 hj

/-- Claim C16 at the seed state and the block of 64 zero bytes. -/
theorem sha256_chunk_spec_witness :
    IsState seed ∧
    sha256_chunk seed (List.replicate 64 0)
      = List.zipWith (fun x y => (x + y) % 2 ^ 32) seed
          ((List.range 64).foldl (FIPS.step (schedule (List.replicate 64 0))) seed) ∧
    (∀ (W : List Nat) (a b c d e f g h i : Nat),
      FIPS.step W [a, b, c, d, e, f, g, h] i =
        [(((((h + (FIPS.rotr 6 e ^^^ FIPS.rotr 11 e ^^^ FIPS.rotr 25 e)) % 2 ^ 32
              + ((e &&& f) ^^^ ((2 ^ 32 - 1 - e) &&& g))) % 2 ^ 32
              + SHA256_K.getD i 0) % 2 ^ 32 + W.getD i 0) % 2 ^ 32
            + ((FIPS.rotr 2 a ^^^ FIPS.rotr 13 a ^^^ FIPS.rotr 22 a)
                + ((a &&& b) ^^^ (a &&& c) ^^^ (b &&& c))) % 2 ^ 32) % 2 ^ 32,
         a, b, c,
         (d + ((((h + (FIPS.rotr 6 e ^^^ FIPS.rotr 11 e ^^^ FIPS.rotr 25 e)) % 2 ^ 32
              + ((e &&& f) ^^^ ((2 ^ 32 - 1 - e) &&& g))) % 2 ^ 32
              + SHA256_K.getD i 0) % 2 ^ 32 + W.getD i 0) % 2 ^ 32) % 2 ^ 32,
         e, f, g]) ∧
    (∀ x n, n ∈ [2, 6, 11, 13, 22, 25] → ROTR x n = FIPS.rotr n x) ∧
    (∀ x n j, x < 2 ^ 32 → n ∈ [2, 6, 11, 13, 22, 25] → j < 32 →
      (ROTR x n).testBit j = x.testBit ((j + n) % 32)) :=
  ⟨isState_seed, sha256_chunk_spec seed (List.replicate 64 0) isState_seed⟩

/-- C17: for every message of bytes whose length `L` is below `2 ^ 28` with `L mod 64` not
in `{56, 57, 58, 59}`, `sha256` returns exactly the SHA-256 digest of FIPS 180-4; for these
lengths the stream the code feeds is the padded message of the standard. -/
theorem sha256_eq_fips (msg : List Nat) (hmsg : ∀ b ∈ msg, b < 2 ^ 8)
    (hL : msg.length < 2 ^ 28) (hmod : msg.length % 64 ∉ [56, 57, 58, 59]) :
    fedStream msg (msg.length : Int) = some (FIPS.pad msg) ∧
    sha256 msg (msg.length : Int) = some (FIPS.digest msg) := by
  have hmod' : msg.length % 64 < 56 ∨ 60 ≤ msg.length % 64 := by
    simp only [List.mem_cons, List.mem_singleton, List.not_mem_nil, or_false, not_or] at hmod
    omega
  have hpad := codeStream_eq_pad msg (by norm_num at hL ⊢; omega) hmod'
  have hmax := fits_of_lt msg.length (by norm_num at hL ⊢; omega)
  refine ⟨by rw [fedStream_eq msg hmax, hpad], ?_⟩
  rw [sha256_eq_fold msg hmax, FIPS.digest, ← hpad]
  have hB : ∀ b ∈ FIPS.blocks ((codeStream msg).length / 64) (codeStream msg), IsBlock b := by
    rw [blocks_codeStream]
    exact isBlock_streamBlocks msg hmsg _ _ _ _ _
  rw [foldl_sha256_chunk_eq _ seed isState_seed hB]
  rfl

/-- Claim C17 at the message `"abc"`. -/
theorem sha256_eq_fips_witness :
    (∀ b ∈ ([0x61, 0x62, 0x63] : List Nat), b < 2 ^ 8) ∧
    ([0x61, 0x62, 0x63] : List Nat).length < 2 ^ 28 ∧
    ([0x61, 0x62, 0x63] : List Nat).length % 64 ∉ [56, 57, 58, 59] ∧
    fedStream [0x61, 0x62, 0x63] (([0x61, 0x62, 0x63] : List Nat).length : Int)
      = some (FIPS.pad [0x61, 0x62, 0x63]) ∧
    sha256 [0x61, 0x62, 0x63] (([0x61, 0x62, 0x63] : List Nat).length : Int)
      = some (FIPS.digest [0x61, 0x62, 0x63]) :=
  ⟨by decide, by decide, by decide,
    sha256_eq_fips [0x61, 0x62, 0x63] (by decide) (by decide) (by decide)⟩

end Sha256
